import Mathlib

/-!
Verification development for the fphoto-renamer core pipeline.

The Rust sources under `crates/core/src` are shallowly embedded:
text processing (`sanitize.rs`, `template.rs`) works over `List Char`
(mirroring Rust's `chars()`-level operations), the collision resolver
(`planner.rs`) over directory-tagged names, the metadata cascade
(`planner.rs`) over oracle inputs standing for the EXIF/XMP readers, and
the apply/undo engine (`apply.rs`) over a finite set of paths (a path is
its list of components) together with an undo-journal slot.  Filesystem
faults are injected through an explicit fault schedule; `fs::rename`
fails naturally when its source is absent.  OS path canonicalization is
an oracle function of the world.
-/

deriving instance DecidableEq for Except

namespace FPhoto

abbrev Chars := List Char

/-- ASCII lowercase of one character (Rust `u8::to_ascii_lowercase`). -/
def asciiLower (c : Char) : Char :=
  if 'A' ≤ c ∧ c ≤ 'Z' then Char.ofNat (c.toNat + 32) else c

/-- Lowercase a character list ASCII-wise. -/
def lowerL (l : Chars) : Chars := l.map asciiLower

/-- Rust `str::eq_ignore_ascii_case` on character lists. -/
def eqIgnoreAsciiCase (a b : Chars) : Bool := lowerL a = lowerL b

/-- Drop characters satisfying `p` from the left end. -/
def trimLeading (p : Char → Bool) (l : Chars) : Chars := l.dropWhile p

/-- Drop characters satisfying `p` from the right end. -/
def trimTrailing (p : Char → Bool) (l : Chars) : Chars :=
  (l.reverse.dropWhile p).reverse

/-- Drop characters satisfying `p` from both ends (Rust `trim_matches`). -/
def trimBoth (p : Char → Bool) (l : Chars) : Chars :=
  trimTrailing p (trimLeading p l)

/-- Decimal digit character for `n % 10`. -/
def digitChar (n : Nat) : Char :=
  if n = 0 then '0' else if n = 1 then '1' else if n = 2 then '2'
  else if n = 3 then '3' else if n = 4 then '4' else if n = 5 then '5'
  else if n = 6 then '6' else if n = 7 then '7' else if n = 8 then '8'
  else '9'

/-- Decimal digits of `n`, most significant first (fuel-structural; the
fuel `n` always suffices since `n / 10 < n`). -/
def natCharsGo : Nat → Nat → Chars → Chars
  | 0, n, acc => digitChar n :: acc
  | fuel + 1, n, acc =>
    if n < 10 then digitChar n :: acc
    else natCharsGo fuel (n / 10) (digitChar (n % 10) :: acc)

/-- Decimal digits of `n`, most significant first. -/
def natChars (n : Nat) : Chars := natCharsGo n n []

/-- Left-pad a character list to width `n` with `c`. -/
def leftPad (n : Nat) (c : Char) (l : Chars) : Chars :=
  List.replicate (n - l.length) c ++ l

/-- Rust `format!("{:03}", n)`. -/
def pad3 (n : Nat) : Chars := leftPad 3 '0' (natChars n)

/-- Rust `format!("{:02}", n)`. -/
def pad2 (n : Nat) : Chars := leftPad 2 '0' (natChars n)

/-- Rust `format!("{:04}", n)`. -/
def pad4 (n : Nat) : Chars := leftPad 4 '0' (natChars n)

/-! ### sanitize.rs -/

/-- `WINDOWS_RESERVED_NAMES` from sanitize.rs. -/
def windowsReservedNames : List Chars :=
  ["CON", "PRN", "AUX", "NUL", "COM1", "COM2", "COM3", "COM4", "COM5",
   "COM6", "COM7", "COM8", "COM9", "LPT1", "LPT2", "LPT3", "LPT4", "LPT5",
   "LPT6", "LPT7", "LPT8", "LPT9"].map String.toList

/-- `is_collapse_separator` from sanitize.rs. -/
def isCollapseSeparator (ch : Char) : Bool :=
  ch = '_' || ch = '-' || ch = ' '

/-- `is_disallowed_char` from sanitize.rs (`is_control` is the Unicode Cc
range: below 0x20 or 0x7F–0x9F). -/
def isDisallowedChar (ch : Char) : Bool :=
  ch = '\\' || ch = '/' || ch = ':' || ch = '*' || ch = '?' || ch = '\"' ||
  ch = '<' || ch = '>' || ch = '|' || ch.toNat < 32 ||
  (127 ≤ ch.toNat && ch.toNat ≤ 159)

/-- ASCII uppercase of one character. -/
def asciiUpper (c : Char) : Char :=
  if 'a' ≤ c ∧ c ≤ 'z' then Char.ofNat (c.toNat - 32) else c

/-- Split a character list at every occurrence of `sep`, keeping empty
fields, as Rust `str::split(sep)` does. -/
def splitOnChar (sep : Char) : Chars → List Chars
  | [] => [[]]
  | c :: rest =>
    match splitOnChar sep rest with
    | [] => [[]]
    | t :: ts => if c = sep then [] :: t :: ts else (c :: t) :: ts

/-- Join character lists with a single separator character. -/
def joinSep (sep : Char) (l : List Chars) : Chars :=
  List.intercalate [sep] l

/-- `is_windows_reserved` from sanitize.rs. -/
def isWindowsReserved (value : Chars) : Bool :=
  let stem := (splitOnChar '.' value).headD value
  windowsReservedNames.contains (stem.map asciiUpper)

/-- `normalize_spaces_to_underscore` from sanitize.rs: whitespace runs
become a single underscore (helper carrying the in-run flag). -/
def normalizeSpacesAux (inSpace : Bool) : Chars → Chars
  | [] => []
  | ch :: rest =>
    if ch.isWhitespace then
      if inSpace then normalizeSpacesAux true rest
      else '_' :: normalizeSpacesAux true rest
    else ch :: normalizeSpacesAux false rest

/-- `normalize_spaces_to_underscore` from sanitize.rs. -/
def normalizeSpacesToUnderscore (value : Chars) : Chars :=
  normalizeSpacesAux false value

/-- Collapsing pass of `cleanup_filename`: a separator equal to the
previous character's separator is dropped. -/
def cleanupCollapse (prevSep : Option Char) : Chars → Chars
  | [] => []
  | ch :: rest =>
    if isCollapseSeparator ch then
      if prevSep = some ch then cleanupCollapse prevSep rest
      else ch :: cleanupCollapse (some ch) rest
    else ch :: cleanupCollapse none rest

/-- `cleanup_filename` from sanitize.rs: collapse repeated identical
separators, then trim separators and dots from both ends. -/
def cleanupFilename (value : Chars) : Chars :=
  trimBoth (fun c => c = '_' || c = '-' || c = ' ' || c = '.')
    (cleanupCollapse none value)

/-- `sanitize_filename` from sanitize.rs. -/
def sanitizeFilename (value : Chars) : Chars :=
  let replaced := value.map (fun ch => if isDisallowedChar ch then '_' else ch)
  let trimmed := trimBoth (fun c => c.isWhitespace)
    (trimTrailing (fun c => c = ' ' || c = '.') replaced)
  let out := if trimmed = [] then "untitled".toList else trimmed
  if isWindowsReserved out then out ++ "_file".toList else out

/-- Inner loop of `truncate_filename_if_needed` (fuel-structural; the
token count bounds the iterations): drop trailing underscore-delimited
tokens until the rejoined name fits. -/
def truncateGo (extLen limit : Nat) : Nat → List Chars → Option Chars
  | 0, _ => none
  | fuel + 1, tokens =>
    if tokens.length ≤ 1 then none
    else
      if (joinSep '_' tokens.dropLast).length + extLen ≤ limit then
        some (joinSep '_' tokens.dropLast)
      else truncateGo extLen limit fuel tokens.dropLast

/-- Inner loop of `truncate_filename_if_needed`. -/
def truncateLoop (extLen limit : Nat) (tokens : List Chars) : Option Chars :=
  truncateGo extLen limit tokens.length tokens

/-- `truncate_filename_if_needed` from sanitize.rs. -/
def truncateFilenameIfNeeded (name ext : Chars) (limit : Nat) : Chars :=
  if name.length + ext.length ≤ limit then name
  else
    match truncateLoop ext.length limit (splitOnChar '_' name) with
    | some cand => cand
    | none => name.take (limit - ext.length)

/-- Recursive core of `replace_case_insensitive` (fuel-structural; the
haystack length bounds the iterations): remove every (case-insensitive,
ASCII) occurrence of the needle, restarting the scan after each removed
occurrence, as the Rust cursor loop does. -/
def removeCIGo (n0 : Char) (ntail : Chars) : Nat → Chars → Chars
  | 0, l => l
  | _ + 1, [] => []
  | fuel + 1, c :: rest =>
    if (n0 :: ntail).isPrefixOf (lowerL (c :: rest)) then
      removeCIGo n0 ntail fuel (rest.drop ntail.length)
    else c :: removeCIGo n0 ntail fuel rest

/-- `replace_case_insensitive` from sanitize.rs (all text in the claims is
ASCII, where Rust's Unicode `to_lowercase` agrees with `asciiLower`). -/
def replaceCaseInsensitive (haystack needle : Chars) : Chars :=
  match lowerL needle with
  | [] => haystack
  | n0 :: ntail => removeCIGo n0 ntail haystack.length haystack

/-- `normalize_plus_char` from sanitize.rs: fullwidth plus to ASCII plus. -/
def normalizePlusChar (input : Chars) : Chars :=
  input.map (fun ch => if ch = '＋' then '+' else ch)

/-- `replace_whitespace_runs` from sanitize.rs. -/
def replaceWhitespaceRunsAux (sep : Char) (inSpace : Bool) : Chars → Chars
  | [] => []
  | ch :: rest =>
    if ch.isWhitespace then
      if inSpace then replaceWhitespaceRunsAux sep true rest
      else sep :: replaceWhitespaceRunsAux sep true rest
    else ch :: replaceWhitespaceRunsAux sep false rest

/-- `replace_whitespace_runs` from sanitize.rs. -/
def replaceWhitespaceRuns (term : Chars) (sep : Char) : Chars :=
  replaceWhitespaceRunsAux sep false term

/-- `normalize_separator_variant` from sanitize.rs: whitespace, hyphen and
underscore runs all become a single `sep`. -/
def normalizeSeparatorVariantAux (sep : Char) (inSep : Bool) : Chars → Chars
  | [] => []
  | ch :: rest =>
    if ch.isWhitespace || ch = '-' || ch = '_' then
      if inSep then normalizeSeparatorVariantAux sep true rest
      else sep :: normalizeSeparatorVariantAux sep true rest
    else ch :: normalizeSeparatorVariantAux sep false rest

/-- `normalize_separator_variant` from sanitize.rs. -/
def normalizeSeparatorVariant (term : Chars) (sep : Char) : Chars :=
  normalizeSeparatorVariantAux sep false term

/-- `compact_separator_before_plus` from sanitize.rs: separators pending
immediately before a `+` are discarded. -/
def compactSepBeforePlusAux (pending : Chars) : Chars → Chars
  | [] => pending
  | ch :: rest =>
    if ch.isWhitespace || ch = '-' || ch = '_' then
      compactSepBeforePlusAux (pending ++ [ch]) rest
    else if ch = '+' then ch :: compactSepBeforePlusAux [] rest
    else pending ++ ch :: compactSepBeforePlusAux [] rest

/-- `compact_separator_before_plus` from sanitize.rs. -/
def compactSeparatorBeforePlus (input : Chars) : Chars :=
  compactSepBeforePlusAux [] input

/-- `ensure_separator_after_plus` from sanitize.rs: a `+` directly followed
by a non-separator, non-plus character gets `sep` inserted after it. -/
def ensureSepAfterPlusAux (sep : Char) : Chars → Chars
  | [] => []
  | ch :: rest =>
    if ch = '+' then
      match rest with
      | [] => [ch]
      | n :: _ =>
        if n.isWhitespace || n = '-' || n = '_' || n = '+' then
          ch :: ensureSepAfterPlusAux sep rest
        else ch :: sep :: ensureSepAfterPlusAux sep rest
    else ch :: ensureSepAfterPlusAux sep rest

/-- `ensure_separator_after_plus` from sanitize.rs. -/
def ensureSeparatorAfterPlus (input : Chars) (sep : Char) : Chars :=
  ensureSepAfterPlusAux sep input

/-- `push_unique_case_insensitive` from sanitize.rs. -/
def pushUniqueCaseInsensitive (values : List Chars) (value : Chars) :
    List Chars :=
  if value = [] then values
  else if values.any (fun existing => eqIgnoreAsciiCase existing value) then
    values
  else values ++ [value]

/-- `build_exclusion_variants` from sanitize.rs. -/
def buildExclusionVariants (term : Chars) : List Chars :=
  let canonical := normalizePlusChar term
  let v1 := pushUniqueCaseInsensitive [] canonical
  let v2 := pushUniqueCaseInsensitive v1 (replaceWhitespaceRuns canonical '-')
  let v3 := pushUniqueCaseInsensitive v2 (replaceWhitespaceRuns canonical '_')
  let v4 := pushUniqueCaseInsensitive v3 (normalizeSeparatorVariant canonical '-')
  let v5 := pushUniqueCaseInsensitive v4 (normalizeSeparatorVariant canonical '_')
  let snapshot := v5
  snapshot.foldl
    (fun variants value =>
      let w1 := pushUniqueCaseInsensitive variants (compactSeparatorBeforePlus value)
      let w2 := pushUniqueCaseInsensitive w1 (ensureSeparatorAfterPlus value '-')
      pushUniqueCaseInsensitive w2 (ensureSeparatorAfterPlus value '_'))
    v5

/-- `apply_exclusions` from sanitize.rs. -/
def applyExclusions (value : Chars) (exclusions : List Chars) : Chars :=
  exclusions.foldl
    (fun value exclusion =>
      let term := trimBoth (fun c => c.isWhitespace) exclusion
      if term = [] then value
      else
        (buildExclusionVariants term).foldl
          (fun v variant => replaceCaseInsensitive v variant) value)
    value

/-! ### template.rs -/

/-- `Token` from template.rs. -/
inductive Token where
  | date | year | month | day | hour | minute | second
  | cameraMake | cameraModel | lensMake | lensModel | filmSim | origName
deriving DecidableEq

/-- `TemplatePart` from template.rs. -/
inductive TemplatePart where
  | literal (s : Chars)
  | token (t : Token)
deriving DecidableEq

/-- `TemplateError` from template.rs. -/
inductive TemplateError where
  | empty
  | unbalancedBraces
  | unknownToken (s : Chars)
deriving DecidableEq

/-- `parse_token` from template.rs. -/
def parseToken (token : Chars) : Except TemplateError Token :=
  if token = "date".toList then .ok .date
  else if token = "year".toList then .ok .year
  else if token = "month".toList then .ok .month
  else if token = "day".toList then .ok .day
  else if token = "hour".toList then .ok .hour
  else if token = "minute".toList then .ok .minute
  else if token = "second".toList then .ok .second
  else if token = "camera_maker".toList then .ok .cameraMake
  else if token = "camera_model".toList then .ok .cameraModel
  else if token = "lens_maker".toList then .ok .lensMake
  else if token = "lens_model".toList then .ok .lensModel
  else if token = "film_sim".toList then .ok .filmSim
  else if token = "orig_name".toList then .ok .origName
  else .error (.unknownToken token)

/-- Flush a pending literal accumulator into a parts list. -/
def flushLit (lit : Chars) : List TemplatePart :=
  if lit = [] then [] else [.literal lit]

/-- Character loop of `parse_template`: `tok = some t` means the scanner is
inside an open brace accumulating token text `t`. -/
def parseLoop (parts : List TemplatePart) (lit : Chars) (tok : Option Chars) :
    Chars → Except TemplateError (List TemplatePart)
  | [] =>
    match tok with
    | some _ => .error .unbalancedBraces
    | none => .ok (parts ++ flushLit lit)
  | c :: rest =>
    match tok with
    | some t =>
      if c = '}' then
        if t = [] then .error .unbalancedBraces
        else
          match parseToken t with
          | .error e => .error e
          | .ok token => parseLoop (parts ++ [.token token]) [] none rest
      else if c = '{' then .error .unbalancedBraces
      else parseLoop parts lit (some (t ++ [c])) rest
    | none =>
      if c = '{' then parseLoop (parts ++ flushLit lit) [] (some []) rest
      else if c = '}' then .error .unbalancedBraces
      else parseLoop parts (lit ++ [c]) none rest

/-- `parse_template` from template.rs. -/
def parseTemplate (input : Chars) : Except TemplateError (List TemplatePart) :=
  if input = [] then .error .empty
  else
    match parseLoop [] [] none input with
    | .error e => .error e
    | .ok parts => if parts = [] then .error .empty else .ok parts

/-! ### metadata.rs -/

/-- Capture timestamp, component-wise (chrono `DateTime<Local>` stands in
as its six rendered fields). -/
structure DateTimeL where
  year : Nat
  month : Nat
  day : Nat
  hour : Nat
  minute : Nat
  second : Nat
deriving DecidableEq

/-- `MetadataSource` from metadata.rs. -/
inductive MetadataSource where
  | jpgExif | xmp | rawExif | xmpAndRawExif | fallbackFileModified
deriving DecidableEq

/-- `PartialMetadata` from metadata.rs. -/
structure PartialMetadata where
  date : Option DateTimeL := none
  cameraMake : Option String := none
  cameraModel : Option String := none
  lensMake : Option String := none
  lensModel : Option String := none
  filmSim : Option String := none
deriving DecidableEq

/-- `PhotoMetadata` from metadata.rs (the source path field is omitted; no
claim mentions it). -/
structure PhotoMetadata where
  source : MetadataSource
  date : DateTimeL
  cameraMake : Option String
  cameraModel : Option String
  lensMake : Option String
  lensModel : Option String
  filmSim : Option String
  originalName : String
deriving DecidableEq

/-- `PartialMetadata::merge_missing_from` from metadata.rs. -/
def mergeMissingFrom (base fallback : PartialMetadata) : PartialMetadata where
  date := if base.date = none then fallback.date else base.date
  cameraMake := if base.cameraMake = none then fallback.cameraMake else base.cameraMake
  cameraModel := if base.cameraModel = none then fallback.cameraModel else base.cameraModel
  lensMake := if base.lensMake = none then fallback.lensMake else base.lensMake
  lensModel := if base.lensModel = none then fallback.lensModel else base.lensModel
  filmSim := if base.filmSim = none then fallback.filmSim else base.filmSim

/-- `PhotoMetadata::normalized_camera_make`: trim, drop when empty. -/
def normalizedCameraMake (m : PhotoMetadata) : Option Chars :=
  match m.cameraMake with
  | none => none
  | some s =>
    let t := trimBoth (fun c => c.isWhitespace) s.toList
    if t = [] then none else some t

/-- `PhotoMetadata::normalized_lens_make`: trim, drop when empty. -/
def normalizedLensMake (m : PhotoMetadata) : Option Chars :=
  match m.lensMake with
  | none => none
  | some s =>
    let t := trimBoth (fun c => c.isWhitespace) s.toList
    if t = [] then none else some t

/-- `same_maker` from template.rs. -/
def sameMaker (cameraMake lensMake : Option Chars) : Bool :=
  match cameraMake, lensMake with
  | some camera, some lens => eqIgnoreAsciiCase camera lens
  | _, _ => false

/-- `format_date` from template.rs: concatenated yyyyMMddHHmmss. -/
def formatDate (d : DateTimeL) : Chars :=
  pad4 d.year ++ pad2 d.month ++ pad2 d.day ++
  pad2 d.hour ++ pad2 d.minute ++ pad2 d.second

/-- `normalize_literal_connector` from template.rs: `-` becomes `_`. -/
def normalizeLiteralConnector (input : Chars) : Chars :=
  input.map (fun ch => if ch = '-' then '_' else ch)

/-- Whitespace splitter (Rust `str::split_whitespace`), helper. -/
def splitWsAux (cur : Chars) (acc : List Chars) : Chars → List Chars
  | [] => if cur = [] then acc else acc ++ [cur]
  | c :: rest =>
    if c.isWhitespace then
      if cur = [] then splitWsAux [] acc rest
      else splitWsAux [] (acc ++ [cur]) rest
    else splitWsAux (cur ++ [c]) acc rest

/-- Rust `str::split_whitespace` on character lists. -/
def splitWhitespace (l : Chars) : List Chars := splitWsAux [] [] l

/-- `normalize_token_value` from template.rs: whitespace runs collapse to a
single hyphen. -/
def normalizeTokenValue (input : Chars) : Chars :=
  joinSep '-' (splitWhitespace input)

/-- Rust `str::trim` on an optional string, defaulting missing to empty. -/
def trimmedOrEmpty (s : Option String) : Chars :=
  trimBoth (fun c => c.isWhitespace) (s.getD "").toList

/-- `render_template_with_options` from template.rs. -/
def renderTemplateWithOptions (parts : List TemplatePart)
    (metadata : PhotoMetadata) (dedupeSameMaker : Bool) : Chars :=
  let isSame :=
    sameMaker (normalizedCameraMake metadata) (normalizedLensMake metadata)
      && dedupeSameMaker
  parts.foldl
    (fun output part =>
      match part with
      | .literal s => output ++ normalizeLiteralConnector s
      | .token t =>
        let value : Chars :=
          match t with
          | .date => formatDate metadata.date
          | .year => pad4 metadata.date.year
          | .month => pad2 metadata.date.month
          | .day => pad2 metadata.date.day
          | .hour => pad2 metadata.date.hour
          | .minute => pad2 metadata.date.minute
          | .second => pad2 metadata.date.second
          | .cameraMake => (normalizedCameraMake metadata).getD []
          | .cameraModel => trimmedOrEmpty metadata.cameraModel
          | .lensMake =>
            if isSame then [] else (normalizedLensMake metadata).getD []
          | .lensModel => trimmedOrEmpty metadata.lensModel
          | .filmSim => trimmedOrEmpty metadata.filmSim
          | .origName => metadata.originalName.toList
        output ++ normalizeTokenValue value)
    []

/-! ### Metadata cascade (planner.rs `resolve_metadata`)

The EXIF/XMP readers and the sidecar lookup are external collaborators;
their outcomes for one photo are packaged as oracle inputs.  `xmpFound =
some r` means a same-stem sidecar exists and parsing it produced `r`
(`r = none` is a parse failure); `rawMeta` is the successfully decoded
EXIF of a located RAW companion, if any; `jpgMeta` is the photo's own
decoded EXIF, if readable. -/

/-- Oracle inputs to `resolve_metadata` for one photo. -/
structure ResolveInputs where
  hasRawRoot : Bool
  xmpFound : Option (Option PartialMetadata)
  rawMeta : Option PartialMetadata
  jpgMeta : Option PartialMetadata
  fallbackDate : DateTimeL
  originalName : String

/-- `metadata_has_missing_fields` from planner.rs. -/
def metadataHasMissingFields (meta : PartialMetadata) : Bool :=
  meta.date = none || meta.cameraMake = none || meta.cameraModel = none ||
  meta.lensMake = none || meta.lensModel = none || meta.filmSim = none

/-- `metadata_changed` from planner.rs. -/
def metadataChanged (a b : PartialMetadata) : Bool := ¬ a = b

/-- `merge_with_jpg_fallback` from planner.rs. -/
def mergeWithJpgFallback (base : PartialMetadata)
    (jpgExifMeta : Option PartialMetadata) : PartialMetadata :=
  match jpgExifMeta with
  | some jpgMeta => mergeMissingFrom base jpgMeta
  | none => base

/-- `to_photo_metadata` from planner.rs: substitute the fallback date when
absent and force the fallback source label. -/
def toPhotoMetadata (pm : PartialMetadata) (source : MetadataSource)
    (fallbackDate : DateTimeL) (originalName : String) : PhotoMetadata :=
  let sourceOut :=
    if pm.date = none then MetadataSource.fallbackFileModified else source
  { source := sourceOut
    date := pm.date.getD fallbackDate
    cameraMake := pm.cameraMake
    cameraModel := pm.cameraModel
    lensMake := pm.lensMake
    lensModel := pm.lensModel
    filmSim := pm.filmSim
    originalName := originalName }

/-- Branch structure of `resolve_metadata` from planner.rs, producing the
merged partial metadata and the source label chosen by the branch (before
the `to_photo_metadata` fallback override). -/
def cascadeBranch (i : ResolveInputs) : PartialMetadata × MetadataSource :=
  if i.hasRawRoot then
    match i.xmpFound with
    | some (some xmpMeta) =>
      let step :=
        if metadataHasMissingFields xmpMeta then
          match i.rawMeta with
          | some raw =>
            let m := mergeMissingFrom xmpMeta raw
            (m, if metadataChanged xmpMeta m then MetadataSource.xmpAndRawExif
                else MetadataSource.xmp)
          | none => (xmpMeta, MetadataSource.xmp)
        else (xmpMeta, MetadataSource.xmp)
      let merged :=
        if metadataHasMissingFields step.1 then
          mergeWithJpgFallback step.1 i.jpgMeta
        else step.1
      (merged, step.2)
    | some none =>
      match i.rawMeta with
      | some raw =>
        (if metadataHasMissingFields raw then mergeWithJpgFallback raw i.jpgMeta
         else raw, MetadataSource.rawExif)
      | none => (i.jpgMeta.getD {}, MetadataSource.jpgExif)
    | none =>
      match i.rawMeta with
      | some raw =>
        (if metadataHasMissingFields raw then mergeWithJpgFallback raw i.jpgMeta
         else raw, MetadataSource.rawExif)
      | none => (i.jpgMeta.getD {}, MetadataSource.jpgExif)
  else (i.jpgMeta.getD {}, MetadataSource.jpgExif)

/-- `resolve_metadata` from planner.rs, over oracle inputs. -/
def resolveMetadata (i : ResolveInputs) : PhotoMetadata :=
  toPhotoMetadata (cascadeBranch i).1 (cascadeBranch i).2 i.fallbackDate
    i.originalName

/-! ### Rendered-base pipeline (planner.rs `prepare_candidate`) -/

/-- The pure pipeline of `prepare_candidate`: render, apply exclusions,
normalize spaces, clean up, sanitize, truncate. -/
def preparedRenderedBase (template : Chars) (metadata : PhotoMetadata)
    (dedupeSameMaker : Bool) (exclusions : List Chars) (ext : Chars)
    (maxFilenameLen : Nat) : Option Chars :=
  match parseTemplate template with
  | .error _ => none
  | .ok parts =>
    let rendered := renderTemplateWithOptions parts metadata dedupeSameMaker
    let excluded := applyExclusions rendered exclusions
    let normalizedSpaces := normalizeSpacesToUnderscore excluded
    let cleaned := cleanupFilename normalizedSpaces
    let sanitized := sanitizeFilename cleaned
    some (truncateFilenameIfNeeded sanitized ext maxFilenameLen)

/-! ### Collision resolver (planner.rs `resolve_collision` / `is_available`)

A planner path is a parent directory (abstracted to an identifier, since
`resolve_collision` only ever joins names onto the candidate's own parent)
together with a file name at `chars()` granularity. -/

/-- A planner-level path: parent directory identifier plus file name. -/
structure CPath where
  dir : Nat
  name : Chars
deriving DecidableEq

/-- One prepared candidate entering collision resolution: its original
path and its rendered base and extension. -/
structure PreparedC where
  origDir : Nat
  origName : Chars
  base : Chars
  ext : Chars
deriving DecidableEq

/-- The original path of a prepared candidate. -/
def cOrig (p : PreparedC) : CPath := ⟨p.origDir, p.origName⟩

/-- Lexicographic order on planner paths (directory, then name), standing
for the `PathBuf` order under which `collect_jpg_files` sorts. -/
def cpathLe (a b : CPath) : Prop :=
  a.dir < b.dir ∨ (a.dir = b.dir ∧ a.name ≤ b.name)

instance : DecidableRel cpathLe := fun a b => by
  unfold cpathLe; infer_instance

/-- Processing order of the batch: candidates ordered by original path. -/
def preparedLe (p q : PreparedC) : Prop := cpathLe (cOrig p) (cOrig q)

instance : DecidableRel preparedLe := fun p q => by
  unfold preparedLe; infer_instance

instance : IsTotal PreparedC preparedLe where
  total p q := by
    unfold preparedLe cpathLe cOrig
    rcases Nat.lt_trichotomy p.origDir q.origDir with h | h | h
    · exact Or.inl (Or.inl h)
    · rcases le_total p.origName q.origName with h2 | h2
      · exact Or.inl (Or.inr ⟨h, h2⟩)
      · exact Or.inr (Or.inr ⟨h.symm, h2⟩)
    · exact Or.inr (Or.inl h)

instance : IsTrans PreparedC preparedLe where
  trans p q r hpq hqr := by
    unfold preparedLe cpathLe cOrig at *
    rcases hpq with h1 | ⟨e1, n1⟩ <;> rcases hqr with h2 | ⟨e2, n2⟩
    · exact Or.inl (h1.trans h2)
    · exact Or.inl (e2 ▸ h1)
    · exact Or.inl (e1 ▸ h2)
    · exact Or.inr ⟨e1.trans e2, n1.trans n2⟩

/-- `is_available` from planner.rs: not claimed earlier in the batch, and
either the candidate's own original path or not an existing entry. -/
def isAvailable (candidate original : CPath) (plannedPaths : List CPath)
    (existing : List CPath) : Bool :=
  if plannedPaths.contains candidate then false
  else if candidate = original then true
  else ¬ existing.contains candidate

/-- The `n`-th name tried by `resolve_collision`: the bare base for `n = 0`,
then re-truncated `base_NNN` variants. -/
def attemptName (base ext : Chars) (maxLen : Nat) : Nat → Chars
  | 0 => base ++ ext
  | Nat.succ n =>
    truncateFilenameIfNeeded (base ++ '_' :: pad3 (n + 1)) ext maxLen ++ ext

/-- The numeric-suffix loop of `resolve_collision`, fuel-bounded: the Rust
loop has no bound, so exhausted fuel (`none`) models non-termination up to
that depth. -/
def resolveCollisionLoop (existing : List CPath) (original : CPath)
    (base ext : Chars) (maxLen : Nat) (plannedPaths : List CPath) :
    Nat → Nat → Option (CPath × List CPath)
  | 0, _ => none
  | fuel + 1, n =>
    let candidate : CPath := ⟨original.dir, attemptName base ext maxLen n⟩
    if isAvailable candidate original plannedPaths existing then
      some (candidate, candidate :: plannedPaths)
    else
      resolveCollisionLoop existing original base ext maxLen plannedPaths
        fuel (n + 1)

/-- `resolve_collision` from planner.rs (fuel-bounded). -/
def resolveCollision (fuel : Nat) (existing : List CPath) (original : CPath)
    (base ext : Chars) (maxLen : Nat) (plannedPaths : List CPath) :
    Option (CPath × List CPath) :=
  let candidate : CPath := ⟨original.dir, base ++ ext⟩
  if isAvailable candidate original plannedPaths existing then
    some (candidate, candidate :: plannedPaths)
  else
    resolveCollisionLoop existing original base ext maxLen plannedPaths fuel 1

/-- The sequential collision-resolution pass over a batch, threading the
claimed-path set, as the plan builder's final loop does. -/
def resolveCollisionBatch (fuel : Nat) (existing : List CPath) (maxLen : Nat) :
    List PreparedC → List CPath → Option (List (PreparedC × CPath) × List CPath)
  | [], plannedPaths => some ([], plannedPaths)
  | p :: rest, plannedPaths =>
    match resolveCollision fuel existing (cOrig p) p.base p.ext maxLen
        plannedPaths with
    | none => none
    | some (target, planned') =>
      match resolveCollisionBatch fuel existing maxLen rest planned' with
      | none => none
      | some (assigns, plannedOut) => some ((p, target) :: assigns, plannedOut)

/-- The batch in the plan builder's deterministic processing order:
candidates sorted by original path (stable, like `Vec::sort`). -/
def sortedBatch (prepared : List PreparedC) : List PreparedC :=
  List.insertionSort preparedLe prepared

/-- Divergence predicate for `resolve_collision`: no fuel bound suffices,
i.e. the Rust loop never exits. -/
def resolveCollisionDiverges (existing : List CPath) (original : CPath)
    (base ext : Chars) (maxLen : Nat) (plannedPaths : List CPath) : Prop :=
  ∀ fuel, resolveCollision fuel existing original base ext maxLen
    plannedPaths = none

/-! ### Apply/undo engine (apply.rs)

A filesystem path is its list of components; the filesystem is the finite
set of file paths that exist.  `World.canon` is the OS's path resolution
(`fs::canonicalize`), `World.isDir` its directory test on resolved roots,
and `World.now` the millisecond timestamp used in temp names.  A fault
schedule injects rename/write failures at chosen points; `fs::rename`
also fails naturally when its source does not exist. -/

/-- A filesystem path, as its list of components. -/
abbrev Path := List String

/-- OS oracle: canonicalization, directory test, current timestamp. -/
structure World where
  canon : Path → Option Path
  isDir : Path → Bool
  now : Nat

/-- Injected faults: the staging rename at a given index fails, the commit
rename at a given index fails, the journal write fails. -/
structure FaultSched where
  stageFail : Option Nat
  commitFail : Option Nat
  persistFail : Bool

/-- `RenameCandidate`, restricted to the fields the engine reads. -/
structure Cand where
  original : Path
  target : Path
  changed : Bool
deriving DecidableEq

/-- `RenamePlan`, restricted to the fields the engine reads. -/
structure Plan where
  jpgRoot : Path
  jpgRoots : List Path
  candidates : List Cand
deriving DecidableEq

/-- `RenameOperation` from apply.rs. -/
structure RenameOp where
  fromPath : Path
  toPath : Path
deriving DecidableEq

/-- `UndoLog` from apply.rs. -/
structure UndoLog where
  operations : List RenameOp
  backupOriginals : Bool
  jpgRoot : Option Path
  jpgRoots : List Path
  backupPaths : List Path
deriving DecidableEq

/-- `ValidatedUndoLog` from apply.rs. -/
structure ValidatedUndoLog where
  operations : List RenameOp
  jpgRoots : List Path
  backupPaths : List Path
deriving DecidableEq

/-- `ApplyResult` from apply.rs. -/
structure ApplyResult where
  applied : Nat
  unchanged : Nat
deriving DecidableEq

/-- `ApplyOptions` from apply.rs. -/
structure ApplyOptions where
  backupOriginals : Bool
deriving DecidableEq

/-- `UndoResult` from apply.rs. -/
structure UndoResult where
  restored : Nat
deriving DecidableEq

/-- `StagedRename` from apply.rs. -/
structure StagedRename where
  originalPath : Path
  targetPath : Path
  tempPath : Path
deriving DecidableEq

/-- Engine state: the filesystem plus the single undo-journal slot. -/
structure St where
  fs : Finset Path
  journal : Option UndoLog
deriving DecidableEq

/-- `fs::rename`: fails when the source does not exist, otherwise moves
the entry (overwriting any entry at the destination). -/
def renameFs (fs : Finset Path) (a b : Path) : Option (Finset Path) :=
  if a ∈ fs then some (insert b (fs.erase a)) else none

/-- A sequence of renames, each skipped when its source is absent (the
exists-guarded rollback loops of apply.rs, where every performed rename
succeeds). -/
def applyRenames (ps : List (Path × Path)) (fs : Finset Path) : Finset Path :=
  ps.foldl (fun s p => if p.1 ∈ s then insert p.2 (s.erase p.1) else s) fs

/-- `plan_jpg_roots` from apply.rs. -/
def planJpgRoots (plan : Plan) : List Path :=
  if plan.jpgRoots = [] then [plan.jpgRoot] else plan.jpgRoots

/-- `path_within_any_root` from apply.rs (`Path::starts_with` is
component-wise prefix). -/
def pathWithinAnyRoot (p : Path) (roots : List Path) : Bool :=
  roots.any (fun root => root.isPrefixOf p)

/-- Loop of `canonicalize_jpg_roots`: canonicalize each root, require a
directory, dedupe preserving order. -/
def canonicalizeRootsLoop (w : World) (seen : Finset Path) (acc : List Path) :
    List Path → Except String (List Path)
  | [] => .ok acc
  | root :: rest =>
    match w.canon root with
    | none => .error "root-resolve-failed"
    | some canonical =>
      if w.isDir canonical then
        if canonical ∈ seen then canonicalizeRootsLoop w seen acc rest
        else
          canonicalizeRootsLoop w (insert canonical seen) (acc ++ [canonical])
            rest
      else .error "root-not-a-directory"

/-- `canonicalize_jpg_roots` from apply.rs. -/
def canonicalizeJpgRoots (w : World) (rawRoots : List Path) :
    Except String (List Path) :=
  if rawRoots = [] then .error "no-jpg-root"
  else canonicalizeRootsLoop w ∅ [] rawRoots

/-- Per-candidate loop of `validate_apply_candidates`. -/
def validateCandsLoop (w : World) (roots : List Path)
    (seenOriginalPaths seenTargetPaths : Finset Path) :
    List Cand → Except String Unit
  | [] => .ok ()
  | c :: rest =>
    match w.canon c.original with
    | none => .error "original-resolve-failed"
    | some originalCanonical =>
      if pathWithinAnyRoot originalCanonical roots then
        if originalCanonical ∈ seenOriginalPaths then .error "duplicate-original"
        else
          if c.target = [] then .error "target-missing-parent"
          else
            match w.canon c.target.dropLast with
            | none => .error "target-parent-resolve-failed"
            | some targetParentCanonical =>
              if pathWithinAnyRoot targetParentCanonical roots then
                if targetParentCanonical ++ [c.target.getLastD ""] ∈
                    seenTargetPaths then .error "duplicate-target"
                else
                  validateCandsLoop w roots
                    (insert originalCanonical seenOriginalPaths)
                    (insert (targetParentCanonical ++ [c.target.getLastD ""])
                      seenTargetPaths) rest
              else .error "target-outside-root"
      else .error "original-outside-root"

/-- `validate_apply_candidates` from apply.rs. -/
def validateApplyCandidates (w : World) (plan : Plan)
    (candidates : List Cand) : Except String Unit :=
  match canonicalizeJpgRoots w (planJpgRoots plan) with
  | .error e => .error e
  | .ok jpgRoots => validateCandsLoop w jpgRoots ∅ ∅ candidates

/-- `temp_path_for` from apply.rs: a temp sibling whose name carries the
timestamp and the staging index. -/
def tempPathFor (w : World) (originalPath : Path) (index : Nat) : Path :=
  originalPath.dropLast ++
    [".fphoto_tmp_" ++ toString w.now ++ "_" ++ toString index ++ "_" ++
      originalPath.getLastD "file"]

/-- The staged entries the staging loop builds, starting at index `i`. -/
def stagedOf (w : World) : Nat → List Cand → List StagedRename
  | _, [] => []
  | i, c :: rest =>
    ⟨c.original, c.target, tempPathFor w c.original i⟩ :: stagedOf w (i + 1) rest

/-- `rollback_staged_to_original_paths` from apply.rs: reverse order,
skipping absent temps. -/
def rollbackStagedToOriginalPaths (staged : List StagedRename)
    (fs : Finset Path) : Finset Path :=
  applyRenames ((staged.map (fun e => (e.tempPath, e.originalPath))).reverse) fs

/-- Phase-1 staging loop: rename each original to its temp sibling; on
failure, roll back everything staged so far. -/
def stageLoop (w : World) (sched : FaultSched) :
    Nat → Finset Path → List Cand → List StagedRename →
    Sum (Finset Path) (Finset Path × List StagedRename)
  | _, fs, [], acc => .inr (fs, acc)
  | i, fs, c :: rest, acc =>
    match (if sched.stageFail = some i then none
           else renameFs fs c.original (tempPathFor w c.original i)) with
    | none => .inl (rollbackStagedToOriginalPaths acc fs)
    | some fs' =>
      stageLoop w sched (i + 1) fs' rest
        (acc ++ [⟨c.original, c.target, tempPathFor w c.original i⟩])

/-- `rollback_after_final_rename_failure` from apply.rs: move committed
targets back to their temp names, then run the full phase-1 rollback. -/
def rollbackAfterFinalRenameFailure (staged : List StagedRename)
    (finalized : Nat) (fs : Finset Path) : Finset Path :=
  rollbackStagedToOriginalPaths staged
    (applyRenames
      (((staged.take finalized).map (fun e => (e.targetPath, e.tempPath))).reverse)
      fs)

/-- Phase-2 commit loop: rename each staged temp to its final target in
staging order; on failure, roll back. -/
def commitLoop (sched : FaultSched) (stagedAll : List StagedRename) :
    Nat → Finset Path → List StagedRename → Sum (Finset Path) (Finset Path)
  | _, fs, [] => .inr fs
  | i, fs, e :: rest =>
    match (if sched.commitFail = some i then none
           else renameFs fs e.tempPath e.targetPath) with
    | none => .inl (rollbackAfterFinalRenameFailure stagedAll i fs)
    | some fs' => commitLoop sched stagedAll (i + 1) fs' rest

/-- `rollback_after_undo_persist_failure` from apply.rs. -/
def rollbackAfterUndoPersistFailure (operations : List RenameOp)
    (fs : Finset Path) : Finset Path :=
  applyRenames ((operations.map (fun o => (o.toPath, o.fromPath))).reverse) fs

/-- `Path::file_stem` / `Path::extension` on one component (extension
defaults to the empty string, as the Rust call site does). -/
def fileStemExtS (name : String) : String × String :=
  if name = ".." then (name, "")
  else
    match name.splitOn "." with
    | [] => (name, "")
    | [s] => (s, "")
    | parts =>
      if parts.length = 2 ∧ parts.headD "x" = "" then (name, "")
      else (String.intercalate "." parts.dropLast, parts.getLastD "")

/-- `format!("{:03}", n)` as a `String`. -/
def pad3String (n : Nat) : String := String.mk (pad3 n)

/-- Numeric-suffix loop of `unique_backup_path_with_reserved`,
fuel-bounded. -/
def uniqueBackupLoop (parent : Path) (stem ext : String)
    (fs : Finset Path) : Nat → Nat → Finset Path → Option (Path × Finset Path)
  | 0, _, _ => none
  | fuel + 1, n, reserved =>
    let name := stem ++ "_" ++ pad3String n ++
      (if ext = "" then "" else "." ++ ext)
    let next := parent ++ [name]
    if next ∉ fs ∧ next ∉ reserved then some (next, insert next reserved)
    else uniqueBackupLoop parent stem ext fs fuel (n + 1) reserved

/-- `unique_backup_path_with_reserved` from apply.rs. -/
def uniqueBackupPathWithReserved (fuel : Nat) (candidate : Path)
    (reserved fs : Finset Path) : Option (Path × Finset Path) :=
  if candidate ∉ fs ∧ candidate ∉ reserved then
    some (candidate, insert candidate reserved)
  else
    let stemExt :=
      match candidate.getLast? with
      | none => ("file", "")
      | some nm => fileStemExtS nm
    uniqueBackupLoop candidate.dropLast stemExt.1 stemExt.2 fs fuel 1 reserved

/-- `resolve_backup_path_with_reserved` from apply.rs. -/
def resolveBackupPathWithReserved (fuel : Nat)
    (backupRoot jpgRoot originalPath : Path) (reserved fs : Finset Path) :
    Option (Path × Finset Path) :=
  if jpgRoot.isPrefixOf originalPath ∧ originalPath.drop jpgRoot.length ≠ [] then
    uniqueBackupPathWithReserved fuel
      (backupRoot ++ originalPath.drop jpgRoot.length) reserved fs
  else
    uniqueBackupPathWithReserved fuel
      (backupRoot ++ [originalPath.getLastD "file"]) reserved fs

/-- Backup-root setup loop of `backup_original_files`: each root's
`backup` child must canonicalize back inside that root. -/
def backupRootsLoop (w : World) : List Path →
    Except String (List (Path × Path))
  | [] => .ok []
  | root :: rest =>
    match w.canon (root ++ ["backup"]) with
    | none => .error "backup-root-resolve-failed"
    | some backupRootCanonical =>
      if root.isPrefixOf backupRootCanonical then
        match backupRootsLoop w rest with
        | .error e => .error e
        | .ok pairs => .ok ((root, backupRootCanonical) :: pairs)
      else .error "backup-root-outside"

/-- `filter ∘ max_by_key` on governing roots: the most specific root pair
containing the path (`max_by_key` keeps the last maximum). -/
def pickMostSpecificPair (pairs : List (Path × Path)) (p : Path) :
    Option (Path × Path) :=
  pairs.foldl
    (fun acc pair =>
      if pair.1.isPrefixOf p then
        match acc with
        | none => some pair
        | some q => if q.1.length ≤ pair.1.length then some pair else some q
      else acc)
    none

/-- Reservation loop of `backup_original_files`: resolve each candidate's
backup destination, threading the reserved-name set. -/
def backupReserveLoop (w : World) (fuel : Nat)
    (pairs : List (Path × Path)) (fs : Finset Path) :
    Finset Path → List Cand → Option (List Path)
  | _, [] => some []
  | reserved, c :: rest =>
    match w.canon c.original with
    | none => none
    | some originalCanonical =>
      match pickMostSpecificPair pairs originalCanonical with
      | none => none
      | some pair =>
        match resolveBackupPathWithReserved fuel pair.2 pair.1
            originalCanonical reserved fs with
        | none => none
        | some (backupPath, reserved') =>
          match backupReserveLoop w fuel pairs fs reserved' rest with
          | none => none
          | some bps => some (backupPath :: bps)

/-- `backup_original_files` from apply.rs: the reserved destination list
(the copies themselves are inserted by the caller; a `none` covers both a
validation failure and exhausted fuel). -/
def backupOriginalFiles (w : World) (fuel : Nat) (fs : Finset Path)
    (plan : Plan) (candidates : List Cand) : Option (List Path) :=
  match canonicalizeJpgRoots w (planJpgRoots plan) with
  | .error _ => none
  | .ok jpgRoots =>
    match backupRootsLoop w jpgRoots with
    | .error _ => none
    | .ok pairs => backupReserveLoop w fuel pairs fs ∅ candidates

/-- `cleanup_created_backups_after_persist_failure` from apply.rs: remove
each created backup file (directory pruning acts on directories only,
which the file-set model does not carry). -/
def cleanupCreatedBackups (backupPaths : List Path) (fs : Finset Path) :
    Finset Path :=
  backupPaths.foldl (fun s bp => s.erase bp) fs

/-- The journal operations recorded by the commit loop. -/
def opsOf (staged : List StagedRename) : List RenameOp :=
  staged.map (fun e => ⟨e.originalPath, e.targetPath⟩)

/-- The changed candidates of a plan, in plan order. -/
def changedCands (plan : Plan) : List Cand :=
  plan.candidates.filter (fun c => c.changed)

/-- `apply_plan_with_options_with_paths` from apply.rs. -/
def applyPlan (w : World) (sched : FaultSched) (fuel : Nat) (st : St)
    (plan : Plan) (options : ApplyOptions) : Except String ApplyResult × St :=
  if changedCands plan = [] then (.ok ⟨0, plan.candidates.length⟩, st)
  else
    match validateApplyCandidates w plan (changedCands plan) with
    | .error e => (.error e, st)
    | .ok _ =>
      match (if options.backupOriginals then
               backupOriginalFiles w fuel st.fs plan (changedCands plan)
             else some []) with
      | none => (.error "backup-failed", st)
      | some backupPaths =>
        match stageLoop w sched 0
            (backupPaths.foldl (fun s p => insert p s) st.fs)
            (changedCands plan) [] with
        | .inl fsRolledBack =>
          (.error "stage-rename-failed", ⟨fsRolledBack, st.journal⟩)
        | .inr stagedOut =>
          match commitLoop sched stagedOut.2 0 stagedOut.1 stagedOut.2 with
          | .inl fsRolledBack =>
            (.error "final-rename-failed", ⟨fsRolledBack, st.journal⟩)
          | .inr fsCommitted =>
            if sched.persistFail then
              (.error "undo-persist-failed",
               ⟨cleanupCreatedBackups backupPaths
                  (rollbackAfterUndoPersistFailure (opsOf stagedOut.2)
                    fsCommitted),
                st.journal⟩)
            else
              (.ok ⟨(opsOf stagedOut.2).length,
                    plan.candidates.length - (opsOf stagedOut.2).length⟩,
               ⟨fsCommitted,
                some ⟨opsOf stagedOut.2, options.backupOriginals,
                      some plan.jpgRoot, planJpgRoots plan, backupPaths⟩⟩)

/-- `normalize_path_within_roots` from apply.rs. -/
def normalizePathWithinRoots (w : World) (roots : List Path) (p : Path) :
    Except String Path :=
  if p = [] then .error "path-missing-parent"
  else
    match w.canon p.dropLast with
    | none => .error "path-parent-resolve-failed"
    | some canonicalParent =>
      if pathWithinAnyRoot canonicalParent roots then
        .ok (canonicalParent ++ [p.getLastD ""])
      else .error "path-outside-allowed-roots"

/-- Operation-normalization loop of `validate_undo_log`. -/
def validateOpsLoop (w : World) (roots : List Path)
    (seenFrom seenTo : Finset Path) : List RenameOp →
    Except String (List RenameOp)
  | [] => .ok []
  | op :: rest =>
    match normalizePathWithinRoots w roots op.fromPath with
    | .error e => .error e
    | .ok normalizedFrom =>
      match normalizePathWithinRoots w roots op.toPath with
      | .error e => .error e
      | .ok normalizedTo =>
        if normalizedFrom ∈ seenFrom then .error "duplicate-undo-from"
        else if normalizedTo ∈ seenTo then .error "duplicate-undo-to"
        else
          match validateOpsLoop w roots (insert normalizedFrom seenFrom)
              (insert normalizedTo seenTo) rest with
          | .error e => .error e
          | .ok ops => .ok (⟨normalizedFrom, normalizedTo⟩ :: ops)

/-- Backup-path filter of `validate_undo_log`: skip absent entries,
normalize the rest inside the backup roots (a path present in the file
set is a file, so the Rust directory bail-out cannot fire here). -/
def validateBackupPathsLoop (w : World) (fs : Finset Path)
    (backupRoots : List Path) : List Path → Except String (List Path)
  | [] => .ok []
  | bp :: rest =>
    if bp ∈ fs then
      match normalizePathWithinRoots w backupRoots bp with
      | .error e => .error e
      | .ok normalized =>
        match validateBackupPathsLoop w fs backupRoots rest with
        | .error e => .error e
        | .ok bps => .ok (normalized :: bps)
    else validateBackupPathsLoop w fs backupRoots rest

/-- The recorded roots of an undo log: the root list when present, else
the single legacy root. -/
def undoRawRoots (log : UndoLog) : List Path :=
  if log.jpgRoots ≠ [] then log.jpgRoots
  else
    match log.jpgRoot with
    | some r => [r]
    | none => []

/-- `validate_undo_log` from apply.rs. -/
def validateUndoLog (w : World) (fs : Finset Path) (log : UndoLog) :
    Except String ValidatedUndoLog :=
  if undoRawRoots log = [] then .error "undo-log-missing-root"
  else
    match canonicalizeJpgRoots w (undoRawRoots log) with
    | .error e => .error e
    | .ok jpgRoots =>
      match validateOpsLoop w jpgRoots ∅ ∅ log.operations with
      | .error e => .error e
      | .ok operations =>
        if log.backupOriginals then
          match validateBackupPathsLoop w fs
              (jpgRoots.map (fun root => root ++ ["backup"])) log.backupPaths with
          | .error e => .error e
          | .ok backupPaths => .ok ⟨operations, jpgRoots, backupPaths⟩
        else .ok ⟨operations, jpgRoots, []⟩

/-- `restore_operations` from apply.rs: replay in reverse order, renaming
to→from, silently skipping entries whose target no longer exists, and
count the renames actually performed. -/
def restoreOperations (operations : List RenameOp) (fs : Finset Path) :
    Nat × Finset Path :=
  operations.reverse.foldl
    (fun acc op =>
      if op.toPath ∈ acc.2 then (acc.1 + 1, insert op.fromPath (acc.2.erase op.toPath))
      else acc)
    (0, fs)

/-- `cleanup_backup_if_needed` from apply.rs, on the file set: delete
exactly the recorded backup files (empty-directory pruning has no effect
on the file set). -/
def cleanupBackupIfNeeded (v : ValidatedUndoLog) (fs : Finset Path) :
    Finset Path :=
  v.backupPaths.foldl (fun s bp => s.erase bp) fs

/-- `undo_last` from apply.rs: read and validate the journal, replay it in
reverse, clean up backups, delete the journal. -/
def undoLast (w : World) (st : St) : Except String UndoResult × St :=
  match st.journal with
  | none => (.error "no-undo-history", st)
  | some log =>
    match validateUndoLog w st.fs log with
    | .error e => (.error e, st)
    | .ok v =>
      (.ok ⟨(restoreOperations v.operations st.fs).1⟩,
       ⟨cleanupBackupIfNeeded v (restoreOperations v.operations st.fs).2,
        none⟩)

/-- Original paths of the changed candidates. -/
def origsOf (plan : Plan) : List Path := (changedCands plan).map (·.original)

/-- Target paths of the changed candidates. -/
def targetsOf (plan : Plan) : List Path := (changedCands plan).map (·.target)

/-- Temp paths the staging phase will use for the changed candidates. -/
def tempsOf (w : World) (plan : Plan) : List Path :=
  (stagedOf w 0 (changedCands plan)).map (·.tempPath)

/-- Well-formedness of a plan against a world and a starting state: the
world resolves paths to themselves (no symlinks), roots are directories,
every changed candidate sits inside a declared root, paths are pairwise
distinct across originals/targets/temps, originals exist, and targets and
temps are fresh. -/
structure GoodPlan (w : World) (st : St) (plan : Plan) : Prop where
  canonId : ∀ p, w.canon p = some p
  rootsDir : ∀ r ∈ planJpgRoots plan, w.isDir r = true
  origNe : ∀ c ∈ changedCands plan, c.original ≠ []
  targetNe : ∀ c ∈ changedCands plan, c.target ≠ []
  origInRoot : ∀ c ∈ changedCands plan,
    ∃ r ∈ planJpgRoots plan, r.isPrefixOf c.original = true
  origParentInRoot : ∀ c ∈ changedCands plan,
    ∃ r ∈ planJpgRoots plan, r.isPrefixOf c.original.dropLast = true
  targetParentInRoot : ∀ c ∈ changedCands plan,
    ∃ r ∈ planJpgRoots plan, r.isPrefixOf c.target.dropLast = true
  origsNodup : (origsOf plan).Nodup
  targetsNodup : (targetsOf plan).Nodup
  tempsNodup : (tempsOf w plan).Nodup
  origsNotTargets : ∀ p ∈ origsOf plan, p ∉ targetsOf plan
  origsNotTemps : ∀ p ∈ origsOf plan, p ∉ tempsOf w plan
  targetsNotTemps : ∀ p ∈ targetsOf plan, p ∉ tempsOf w plan
  origsExist : ∀ p ∈ origsOf plan, p ∈ st.fs
  targetsFresh : ∀ p ∈ targetsOf plan, p ∉ st.fs
  tempsFresh : ∀ p ∈ tempsOf w plan, p ∉ st.fs

/-- "inside a root" in the words of the spec: some declared root
canonicalizes to a prefix of the path. -/
def canonRootsContain (w : World) (plan : Plan) (p : Path) : Prop :=
  ∃ r ∈ planJpgRoots plan, ∃ cr, w.canon r = some cr ∧ cr.isPrefixOf p = true

/-- Modelled from the spec's validation sentence: the declared roots
canonicalize to directories; every changed candidate's original
canonicalizes inside a root; every changed candidate's target has a
parent canonicalizing inside a root; canonical originals and
parent-normalized targets are duplicate-free. -/
def ValidationSpec (w : World) (plan : Plan) : Prop :=
  (∀ r ∈ planJpgRoots plan, ∃ cr, w.canon r = some cr ∧ w.isDir cr = true) ∧
  (∀ c ∈ changedCands plan,
    ∃ oc, w.canon c.original = some oc ∧ canonRootsContain w plan oc) ∧
  (∀ c ∈ changedCands plan,
    c.target ≠ [] ∧
    ∃ pc, w.canon c.target.dropLast = some pc ∧ canonRootsContain w plan pc) ∧
  ((changedCands plan).map (fun c => w.canon c.original)).Nodup ∧
  ((changedCands plan).map
    (fun c => (w.canon c.target.dropLast).map
      (fun pc => pc ++ [c.target.getLastD ""]))).Nodup

/-! ### Concrete scenarios used to instantiate the theorems -/

/-- A symlink-free world: every path resolves to itself, every root is a
directory. -/
def idWorld : World := ⟨fun p => some p, fun _ => true, 7⟩

/-- Two changed candidates under one root. -/
def twoCandPlan : Plan :=
  ⟨["root"], [["root"]],
   [⟨["root", "a.jpg"], ["root", "A.jpg"], true⟩,
    ⟨["root", "b.jpg"], ["root", "B.jpg"], true⟩]⟩

/-- Starting state for `twoCandPlan`: both originals exist, no journal. -/
def twoCandSt : St := ⟨{["root", "a.jpg"], ["root", "b.jpg"]}, none⟩

/-- A plan whose single changed candidate has an empty target path (no
parent component), violating validation. -/
def badTargetPlan : Plan :=
  ⟨["root"], [["root"]], [⟨["root", "a.jpg"], [], true⟩]⟩

/-- A plan whose candidates are all unchanged. -/
def unchangedPlan : Plan :=
  ⟨["root"], [["root"]], [⟨["root", "a.jpg"], ["root", "a.jpg"], false⟩]⟩

/-- Metadata of the `IMG.JPG` scenario: camera maker `FUJIFILM`, original
stem `IMG`. -/
def imgScenarioMetadata : PhotoMetadata :=
  { source := .jpgExif
    date := ⟨2024, 1, 2, 3, 4, 5⟩
    cameraMake := some "FUJIFILM"
    cameraModel := none
    lensMake := none
    lensModel := none
    filmSim := none
    originalName := "IMG" }

/-! ## Theorems -/

/-- A brace-free suffix extends the pending literal and parses to it. -/
theorem parseLoop_literal (s : Chars) : ∀ parts lit, '{' ∉ s → '}' ∉ s →
    parseLoop parts lit none s = .ok (parts ++ flushLit (lit ++ s)) := by
  induction s with
  | nil => intro parts lit _ _; simp [parseLoop]
  | cons c rest ih =>
    intro parts lit h1 h2
    have hc1 : ¬ c = '{' := fun h => h1 (h ▸ List.mem_cons_self c rest)
    have hc2 : ¬ c = '}' := fun h => h2 (h ▸ List.mem_cons_self c rest)
    have h1' : '{' ∉ rest := fun h => h1 (List.mem_cons_of_mem c h)
    have h2' : '}' ∉ rest := fun h => h2 (List.mem_cons_of_mem c h)
    simp only [parseLoop, if_neg hc1, if_neg hc2]
    rw [ih parts (lit ++ [c]) h1' h2']
    simp

/-- C9: template parsing reports, before any filesystem access (the
parser is a pure function of the template text), the empty template,
unbalanced braces and unknown token names; `"{"` and `"{bogus}"` are
rejected with distinct error kinds, while a non-empty template of literal
text without braces parses to a single literal part. -/
theorem parse_template_error_reporting :
    parseTemplate [] = .error .empty ∧
    parseTemplate "\x7b".toList = .error .unbalancedBraces ∧
    parseTemplate "{bogus}".toList = .error (.unknownToken "bogus".toList) ∧
    parseTemplate "\x7ba\x7b".toList = .error .unbalancedBraces ∧
    parseTemplate "\x7d".toList = .error .unbalancedBraces ∧
    TemplateError.unbalancedBraces ≠ TemplateError.unknownToken "bogus".toList ∧
    (∀ s : Chars, s ≠ [] → '{' ∉ s → '}' ∉ s →
      parseTemplate s = .ok [TemplatePart.literal s]) := by
  refine ⟨by decide, by decide, by decide, by decide, by decide, by decide, ?_⟩
  intro s hne h1 h2
  have := parseLoop_literal s [] [] h1 h2
  simp only [List.nil_append] at this
  have hflush : flushLit s = [TemplatePart.literal s] := by
    simp [flushLit, hne]
  unfold parseTemplate
  rw [if_neg hne, this, hflush]
  simp

/-- Witness for C9: the literal-only template `"abc"` is accepted. -/
theorem parse_template_error_reporting_witness :
    parseTemplate "abc".toList = .ok [TemplatePart.literal "abc".toList] :=
  parse_template_error_reporting.2.2.2.2.2.2 "abc".toList (by decide)
    (by decide) (by decide)

/-- C7: a plan whose candidates are all unchanged applies with zero
mutations, `applied = 0` and `unchanged` equal to the candidate count. -/
theorem apply_all_unchanged_no_mutation (w : World) (sched : FaultSched)
    (fuel : Nat) (st : St) (plan : Plan) (options : ApplyOptions)
    (h : ∀ c ∈ plan.candidates, c.changed = false) :
    applyPlan w sched fuel st plan options =
      (.ok ⟨0, plan.candidates.length⟩, st) := by
  have hfil : plan.candidates.filter (fun c => c.changed) = [] := by
    rw [List.filter_eq_nil_iff]
    intro c hc
    simp [h c hc]
  simp [applyPlan, changedCands, hfil]

/-- Witness for C7 at a concrete one-candidate plan. -/
theorem apply_all_unchanged_no_mutation_witness :
    applyPlan idWorld ⟨none, none, false⟩ 0 ⟨{["root", "a.jpg"]}, none⟩
      unchangedPlan ⟨false⟩ =
      (.ok ⟨0, unchangedPlan.candidates.length⟩, ⟨{["root", "a.jpg"]}, none⟩) :=
  apply_all_unchanged_no_mutation idWorld ⟨none, none, false⟩ 0
    ⟨{["root", "a.jpg"]}, none⟩ unchangedPlan ⟨false⟩ (by decide)

/-- C10 counterexample: for `IMG.JPG` with maker `FUJIFILM`, template
`{camera_maker}_{orig_name}` and exclusion list `["FUJIFILM"]`, the
rendered base after the full post-processing pipeline is NOT `"_IMG"`:
the cleanup step also trims the leading underscore. -/
theorem prepared_base_fujifilm_not_underscore_img :
    preparedRenderedBase "{camera_maker}_{orig_name}".toList
      imgScenarioMetadata true ["FUJIFILM".toList] ".JPG".toList 240 ≠
      some "_IMG".toList := by
  decide

/-- C10 amended: for `IMG.JPG` with maker `FUJIFILM`, template
`{camera_maker}_{orig_name}` and exclusion list `["FUJIFILM"]`, the
rendered base after the full pipeline is `"IMG"`: the exclusion leaves
`"_IMG"` and the separator-trim of cleanup then strips the leading
underscore; no double underscore remains. -/
theorem prepared_base_fujifilm_img :
    preparedRenderedBase "{camera_maker}_{orig_name}".toList
      imgScenarioMetadata true ["FUJIFILM".toList] ".JPG".toList 240 =
      some "IMG".toList ∧
    ¬ ("__".toList <:+: "IMG".toList) := by
  exact ⟨by decide, by decide⟩

/-! ### C6: the numeric-suffix loop can fail to terminate -/

theorem digitChar_ne_underscore (k : Nat) : digitChar k ≠ '_' := by
  unfold digitChar
  split_ifs <;> decide

theorem natCharsGo_mem : ∀ fuel n acc c, c ∈ natCharsGo fuel n acc →
    c ∈ acc ∨ ∃ k, c = digitChar k := by
  intro fuel
  induction fuel with
  | zero =>
    intro n acc c hc
    rcases List.mem_cons.mp hc with h | h
    · exact Or.inr ⟨n, h⟩
    · exact Or.inl h
  | succ fuel ih =>
    intro n acc c hc
    unfold natCharsGo at hc
    split_ifs at hc
    · rcases List.mem_cons.mp hc with h | h
      · exact Or.inr ⟨n, h⟩
      · exact Or.inl h
    · rcases ih (n / 10) (digitChar (n % 10) :: acc) c hc with h | h
      · rcases List.mem_cons.mp h with h2 | h2
        · exact Or.inr ⟨n % 10, h2⟩
        · exact Or.inl h2
      · exact Or.inr h

theorem natChars_no_underscore (n : Nat) : '_' ∉ natChars n := by
  intro hmem
  rcases natCharsGo_mem n n [] '_' hmem with h | ⟨k, hk⟩
  · exact absurd h (List.not_mem_nil '_')
  · exact digitChar_ne_underscore k hk.symm

theorem pad3_no_underscore (n : Nat) : '_' ∉ pad3 n := by
  intro hmem
  rcases List.mem_append.mp hmem with h | h
  · have := List.eq_of_mem_replicate h
    exact absurd this (by decide)
  · exact natChars_no_underscore n h

theorem splitOnChar_ne_nil (sep : Char) (l : Chars) :
    splitOnChar sep l ≠ [] := by
  cases l with
  | nil => simp [splitOnChar]
  | cons c rest =>
    simp only [splitOnChar]
    rcases h : splitOnChar sep rest with _ | ⟨t, ts⟩
    · simp
    · by_cases hc : c = sep <;> simp [hc]

theorem splitOnChar_not_mem {sep : Char} {l : Chars} (h : sep ∉ l) :
    splitOnChar sep l = [l] := by
  induction l with
  | nil => rfl
  | cons c rest ih =>
    have hc : ¬ c = sep := fun hh => h (hh ▸ List.mem_cons_self c rest)
    have hr : sep ∉ rest := fun hh => h (List.mem_cons_of_mem c hh)
    simp only [splitOnChar, ih hr]
    rw [if_neg hc]

theorem splitOnChar_append {sep : Char} {xs : Chars} (ys : Chars)
    (h1 : sep ∉ xs) :
    splitOnChar sep (xs ++ sep :: ys) = xs :: splitOnChar sep ys := by
  induction xs with
  | nil =>
    simp only [List.nil_append, splitOnChar]
    rcases h : splitOnChar sep ys with _ | ⟨t, ts⟩
    · exact absurd h (splitOnChar_ne_nil sep ys)
    · simp
  | cons x xs ih =>
    have hx : ¬ x = sep := fun hh => h1 (hh ▸ List.mem_cons_self x xs)
    have hxs : sep ∉ xs := fun hh => h1 (List.mem_cons_of_mem x hh)
    simp only [List.cons_append, splitOnChar, List.append_eq, ih hxs]
    rw [if_neg hx]

theorem joinSep_single (c : Char) (x : Chars) : joinSep c [x] = x := by
  simp [joinSep, List.intercalate]

/-- When `base` fits the limit but `base_suffix` does not, the truncation
of `base ++ '_' :: suffix` collapses back to `base`. -/
theorem truncate_collapses (t1 t2 ext : Chars) (limit : Nat)
    (h1 : '_' ∉ t1) (h2 : '_' ∉ t2)
    (hfit : t1.length + ext.length ≤ limit)
    (hbig : limit < t1.length + 1 + t2.length + ext.length) :
    truncateFilenameIfNeeded (t1 ++ '_' :: t2) ext limit = t1 := by
  have hlen : (t1 ++ '_' :: t2).length = t1.length + 1 + t2.length := by
    simp only [List.length_append, List.length_cons]
    omega
  unfold truncateFilenameIfNeeded
  rw [if_neg (by omega)]
  have hsplit : splitOnChar '_' (t1 ++ '_' :: t2) = [t1, t2] := by
    rw [splitOnChar_append t2 h1, splitOnChar_not_mem h2]
  unfold truncateLoop
  rw [hsplit]
  have hlen2 : ([t1, t2] : List Chars).length = 2 := rfl
  rw [hlen2]
  unfold truncateGo
  simp only [List.length_cons, List.length_singleton, List.dropLast]
  rw [if_neg (by omega)]
  rw [joinSep_single]
  rw [if_pos hfit]

/-- Every suffixed attempt in the divergent scenario collapses to the
very name that is already taken. -/
theorem attempt_collapses (n : Nat) :
    attemptName "abcd".toList ".jpg".toList 8 (n + 1) = "abcd.jpg".toList := by
  show truncateFilenameIfNeeded ("abcd".toList ++ '_' :: pad3 (n + 1))
      ".jpg".toList 8 ++ ".jpg".toList = "abcd.jpg".toList
  rw [truncate_collapses "abcd".toList (pad3 (n + 1)) ".jpg".toList 8
    (by decide) (pad3_no_underscore (n + 1)) (by decide)
    (by
      have h4 : ("abcd".toList).length = 4 := rfl
      have he : (".jpg".toList).length = 4 := rfl
      omega)]
  decide

theorem resolveCollisionLoop_diverges : ∀ fuel n,
    resolveCollisionLoop [⟨0, "abcd.jpg".toList⟩] ⟨0, "orig.jpg".toList⟩
      "abcd".toList ".jpg".toList 8 [] fuel (n + 1) = none := by
  intro fuel
  induction fuel with
  | zero => intro n; rfl
  | succ fuel ih =>
    intro n
    unfold resolveCollisionLoop
    rw [attempt_collapses n]
    rw [if_neg (by decide)]
    exact ih (n + 1)

/-- C6 (divergence witness for the code bug): with base `abcd`, extension
`.jpg`, length limit 8 and an existing unrelated `abcd.jpg`, the
collision-resolution loop of `resolve_collision` never terminates — every
suffixed variant `abcd_NNN` exceeds the limit, is re-truncated back to
`abcd`, and is rejected again, for every fuel bound. -/
theorem resolve_collision_diverges_on_retruncated_suffix :
    resolveCollisionDiverges [⟨0, "abcd.jpg".toList⟩] ⟨0, "orig.jpg".toList⟩
      "abcd".toList ".jpg".toList 8 [] := by
  intro fuel
  unfold resolveCollision
  rw [if_neg (by decide)]
  exact resolveCollisionLoop_diverges fuel 0

/-! ### C8: fallback source iff no cascade step yielded a date -/

/-- No branch of the cascade ever labels its own result with the fallback
source; only `to_photo_metadata` does, when the date is absent. -/
theorem cascadeBranch_ne_fallback (i : ResolveInputs) :
    (cascadeBranch i).2 ≠ .fallbackFileModified := by
  unfold cascadeBranch
  cases hroot : i.hasRawRoot
  · simp
  · rcases hx : i.xmpFound with _ | mx
    · rcases hraw : i.rawMeta with _ | raw <;> simp
    · rcases mx with _ | xm
      · rcases hraw : i.rawMeta with _ | raw <;> simp
      · by_cases hmiss : metadataHasMissingFields xm = true
        · rcases hraw : i.rawMeta with _ | raw
          · simp [hmiss, hraw]
          · by_cases hch : metadataChanged xm (mergeMissingFrom xm raw) = true
            · simp [hmiss, hraw, hch]
            · simp [hmiss, hraw, hch]
        · simp [hmiss]

/-- Dates merge missing-only: the merged date is absent exactly when both
the base's and the fallback's dates are absent. -/
theorem mergeMissingFrom_date_none (a b : PartialMetadata) :
    (mergeMissingFrom a b).date = none ↔ a.date = none ∧ b.date = none := by
  unfold mergeMissingFrom
  rcases ha : a.date with _ | d <;> simp [ha]

/-- C8: for every resolved photo, the produced metadata has a populated
date — the merged cascade date when present, the file's OS last-modified
time otherwise — and its source is `FallbackFileModified` if and only if
the cascade produced no date, overriding whatever source the branch
chose; a missing-only merge yields no date exactly when neither operand
yielded one. -/
theorem resolve_metadata_fallback_source (i : ResolveInputs) :
    ((resolveMetadata i).source = .fallbackFileModified ↔
      (cascadeBranch i).1.date = none) ∧
    (resolveMetadata i).date = ((cascadeBranch i).1.date.getD i.fallbackDate) ∧
    (∀ a b : PartialMetadata,
      (mergeMissingFrom a b).date = none ↔ a.date = none ∧ b.date = none) := by
  refine ⟨?_, ?_, fun a b => mergeMissingFrom_date_none a b⟩
  · unfold resolveMetadata toPhotoMetadata
    rcases hd : (cascadeBranch i).1.date with _ | d
    · simp [hd]
    · simp [hd, cascadeBranch_ne_fallback i]
  · unfold resolveMetadata toPhotoMetadata
    simp

/-! ### C5: collision-assignment properties -/

theorem isAvailable_true_iff (c o : CPath) (planned existing : List CPath) :
    isAvailable c o planned existing = true ↔
      c ∉ planned ∧ (c = o ∨ c ∉ existing) := by
  unfold isAvailable
  by_cases hp : c ∈ planned
  · rw [if_pos (List.elem_iff.mpr hp)]
    simp [hp]
  · rw [if_neg (fun hc => hp (List.elem_iff.mp hc))]
    by_cases ho : c = o
    · subst ho
      simp [hp]
    · rw [if_neg ho]
      simp [hp, ho, List.elem_iff]

theorem resolveCollisionLoop_spec (existing : List CPath) (original : CPath)
    (base ext : Chars) (maxLen : Nat) (planned : List CPath) :
    ∀ fuel n target planned2,
    resolveCollisionLoop existing original base ext maxLen planned fuel n =
      some (target, planned2) →
    ∃ k, n ≤ k ∧
      target = ⟨original.dir, attemptName base ext maxLen k⟩ ∧
      isAvailable target original planned existing = true ∧
      (∀ j, n ≤ j → j < k →
        isAvailable ⟨original.dir, attemptName base ext maxLen j⟩ original
          planned existing = false) ∧
      planned2 = target :: planned := by
  intro fuel
  induction fuel with
  | zero => intro n target planned2 h; exact absurd h (by simp [resolveCollisionLoop])
  | succ fuel ih =>
    intro n target planned2 h
    unfold resolveCollisionLoop at h
    by_cases hav : isAvailable ⟨original.dir, attemptName base ext maxLen n⟩
        original planned existing = true
    · rw [if_pos hav] at h
      simp only [Option.some.injEq, Prod.mk.injEq] at h
      obtain ⟨ht, hp⟩ := h
      subst ht
      subst hp
      exact ⟨n, le_refl n, rfl, hav, fun j hj1 hj2 => by omega, rfl⟩
    · rw [if_neg hav] at h
      obtain ⟨k, hk1, hk2, hk3, hk4, hk5⟩ := ih (n + 1) target planned2 h
      refine ⟨k, by omega, hk2, hk3, ?_, hk5⟩
      intro j hj1 hj2
      by_cases hjn : j = n
      · subst hjn
        simpa using hav
      · exact hk4 j (by omega) hj2

theorem resolveCollision_first_available (fuel : Nat) (existing : List CPath)
    (original : CPath) (base ext : Chars) (maxLen : Nat)
    (planned planned2 : List CPath) (target : CPath)
    (h : resolveCollision fuel existing original base ext maxLen planned =
      some (target, planned2)) :
    ∃ k, target = ⟨original.dir, attemptName base ext maxLen k⟩ ∧
      isAvailable target original planned existing = true ∧
      (∀ j, j < k →
        isAvailable ⟨original.dir, attemptName base ext maxLen j⟩ original
          planned existing = false) ∧
      planned2 = target :: planned := by
  unfold resolveCollision at h
  by_cases hav : isAvailable ⟨original.dir, base ++ ext⟩ original planned
      existing = true
  · rw [if_pos hav] at h
    simp only [Option.some.injEq, Prod.mk.injEq] at h
    obtain ⟨ht, hp⟩ := h
    subst ht
    subst hp
    exact ⟨0, rfl, hav, fun j hj => absurd hj (by omega), rfl⟩
  · rw [if_neg hav] at h
    obtain ⟨k, hk1, hk2, hk3, hk4, hk5⟩ :=
      resolveCollisionLoop_spec existing original base ext maxLen planned fuel
        1 target planned2 h
    refine ⟨k, hk2, hk3, ?_, hk5⟩
    intro j hj
    by_cases hj0 : j = 0
    · subst hj0
      simpa [attemptName] using hav
    · exact hk4 j (by omega) hj

theorem resolveCollisionBatch_spec (fuel maxLen : Nat)
    (existing : List CPath) :
    ∀ prepared planned assigns plannedOut,
    resolveCollisionBatch fuel existing maxLen prepared planned =
      some (assigns, plannedOut) →
    (assigns.map Prod.snd).Nodup ∧
    (∀ a ∈ assigns, a.2 ∉ planned) ∧
    (∀ a ∈ assigns, a.2 = cOrig a.1 ∨ a.2 ∉ existing) ∧
    assigns.map Prod.fst = prepared := by
  intro prepared
  induction prepared with
  | nil =>
    intro planned assigns plannedOut h
    obtain ⟨h1, h2⟩ : assigns = [] ∧ plannedOut = planned := by
      constructor <;> simp_all [resolveCollisionBatch]
    subst h1
    simp
  | cons p rest ih =>
    intro planned assigns plannedOut h
    unfold resolveCollisionBatch at h
    split at h
    next => exact absurd h (by simp)
    next target planned' hr =>
      split at h
      next => exact absurd h (by simp)
      next assigns' plannedOut' hb =>
        simp only [Option.some.injEq, Prod.mk.injEq] at h
        obtain ⟨h1, h2⟩ := h
        subst h1
        obtain ⟨k, hk1, hk2, _, hk4⟩ :=
          resolveCollision_first_available fuel existing (cOrig p) p.base p.ext
            maxLen planned planned' target hr
        rw [isAvailable_true_iff] at hk2
        obtain ⟨ihn, ihp, ihe, ihf⟩ := ih planned' assigns' plannedOut' hb
        refine ⟨?_, ?_, ?_, ?_⟩
        · simp only [List.map_cons, List.nodup_cons]
          refine ⟨?_, ihn⟩
          intro hmem
          rcases List.mem_map.mp hmem with ⟨a, ha, ha2⟩
          have := ihp a ha
          rw [hk4] at this
          exact this (ha2 ▸ List.mem_cons_self target planned)
        · intro a ha
          rcases List.mem_cons.mp ha with h | h
          · rw [h]; exact hk2.1
          · have := ihp a h
            rw [hk4] at this
            exact fun hmem => this (List.mem_cons_of_mem target hmem)
        · intro a ha
          rcases List.mem_cons.mp ha with h | h
          · rw [h]; exact hk2.2
          · exact ihe a h
        · simp [ihf]

/-- C5: collision resolution processes the batch sequentially in the
plan's deterministic order — the candidate list sorted lexicographically
by original path — and when it completes, the processed list is exactly
that sorted list, assigned targets are pairwise distinct, and every
assigned target is either the candidate's own original path or absent
from the existing filesystem entries; moreover any single successful
`resolve_collision` call returns the first name of the sequence
`base, base_001, base_002, …` that `is_available` accepts, and claims it
in the planned set. -/
theorem resolve_collision_assignment_properties (fuel maxLen : Nat)
    (existing : List CPath) (prepared : List PreparedC)
    (assigns : List (PreparedC × CPath)) (plannedOut : List CPath)
    (h : resolveCollisionBatch fuel existing maxLen (sortedBatch prepared) [] =
      some (assigns, plannedOut)) :
    List.Sorted preparedLe (sortedBatch prepared) ∧
    (sortedBatch prepared).Perm prepared ∧
    assigns.map Prod.fst = sortedBatch prepared ∧
    (assigns.map Prod.snd).Nodup ∧
    (∀ a ∈ assigns, a.2 = cOrig a.1 ∨ a.2 ∉ existing) ∧
    (∀ fuel2 maxLen2 : Nat, ∀ existing2 planned planned2 : List CPath,
      ∀ original target : CPath, ∀ base ext : Chars,
      resolveCollision fuel2 existing2 original base ext maxLen2 planned =
        some (target, planned2) →
      ∃ k, target = ⟨original.dir, attemptName base ext maxLen2 k⟩ ∧
        isAvailable target original planned existing2 = true ∧
        (∀ j, j < k →
          isAvailable ⟨original.dir, attemptName base ext maxLen2 j⟩ original
            planned existing2 = false) ∧
        planned2 = target :: planned) := by
  obtain ⟨hn, _, he, hf⟩ :=
    resolveCollisionBatch_spec fuel maxLen existing (sortedBatch prepared) []
      assigns plannedOut h
  refine ⟨List.sorted_insertionSort preparedLe prepared,
    List.perm_insertionSort preparedLe prepared, hf, hn, he, ?_⟩
  intro fuel2 maxLen2 existing2 planned planned2 original target base ext hcall
  exact resolveCollision_first_available fuel2 existing2 original base ext
    maxLen2 planned planned2 target hcall

/-- Witness for C5: two candidates rendering the same base receive
`name.jpg` and `name_001.jpg`. -/
theorem resolve_collision_assignment_properties_witness :
    (List.map Prod.snd
      [((⟨0, "a.jpg".toList, "name".toList, ".jpg".toList⟩ : PreparedC),
        (⟨0, "name.jpg".toList⟩ : CPath)),
       ((⟨0, "b.jpg".toList, "name".toList, ".jpg".toList⟩ : PreparedC),
        (⟨0, "name_001.jpg".toList⟩ : CPath))]).Nodup := by
  have h :=
    resolve_collision_assignment_properties 10 240 []
      [⟨0, "a.jpg".toList, "name".toList, ".jpg".toList⟩,
       ⟨0, "b.jpg".toList, "name".toList, ".jpg".toList⟩]
      [((⟨0, "a.jpg".toList, "name".toList, ".jpg".toList⟩ : PreparedC),
        (⟨0, "name.jpg".toList⟩ : CPath)),
       ((⟨0, "b.jpg".toList, "name".toList, ".jpg".toList⟩ : PreparedC),
        (⟨0, "name_001.jpg".toList⟩ : CPath))]
      [⟨0, "name_001.jpg".toList⟩, ⟨0, "name.jpg".toList⟩]
      (by decide)
  exact h.2.2.2.1

/-! ### Apply-engine lemmas -/

/-- Membership after a batch of renames: sources pairwise distinct, all
present, and never equal to any destination — an entry survives iff it
was present and not a source, or is a destination. -/
theorem mem_applyRenames (x : Path) : ∀ (ps : List (Path × Path)) (fs : Finset Path),
    (ps.map Prod.fst).Nodup →
    (∀ p ∈ ps, p.1 ∈ fs) →
    (∀ p ∈ ps, ∀ q ∈ ps, p.1 ≠ q.2) →
    (x ∈ applyRenames ps fs ↔
      (x ∈ fs ∧ x ∉ ps.map Prod.fst) ∨ x ∈ ps.map Prod.snd) := by
  intro ps
  induction ps with
  | nil =>
    intro fs _ _ _
    simp [applyRenames]
  | cons ab ps ih =>
    intro fs h1 h2 h3
    obtain ⟨a, b⟩ := ab
    have ha : a ∈ fs := h2 (a, b) (List.mem_cons_self _ _)
    have hstep : applyRenames ((a, b) :: ps) fs =
        applyRenames ps (insert b (fs.erase a)) := by
      simp [applyRenames, ha]
    have hanf : a ∉ ps.map Prod.fst := (List.nodup_cons.mp (by simpa using h1)).1
    have h1' : (ps.map Prod.fst).Nodup := (List.nodup_cons.mp (by simpa using h1)).2
    have h2' : ∀ p ∈ ps, p.1 ∈ insert b (fs.erase a) := by
      intro p hp
      have hpfs : p.1 ∈ fs := h2 p (List.mem_cons_of_mem _ hp)
      have hpa : p.1 ≠ a := by
        intro hh
        exact hanf (hh ▸ List.mem_map.mpr ⟨p, hp, rfl⟩)
      exact Finset.mem_insert_of_mem (Finset.mem_erase.mpr ⟨hpa, hpfs⟩)
    have h3' : ∀ p ∈ ps, ∀ q ∈ ps, p.1 ≠ q.2 := fun p hp q hq =>
      h3 p (List.mem_cons_of_mem _ hp) q (List.mem_cons_of_mem _ hq)
    rw [hstep, ih (insert b (fs.erase a)) h1' h2' h3']
    have hbf : b ∉ ps.map Prod.fst := by
      intro hm
      rcases List.mem_map.mp hm with ⟨p, hp, hpe⟩
      exact h3 p (List.mem_cons_of_mem _ hp) (a, b) (List.mem_cons_self _ _) hpe
    simp only [Finset.mem_insert, Finset.mem_erase, List.map_cons,
      List.mem_cons]
    constructor
    · rintro (⟨hb | ⟨hne, hfs⟩, hnm⟩ | hm)
      · exact Or.inr (Or.inl hb)
      · refine Or.inl ⟨hfs, ?_⟩
        rintro (h | h)
        · exact hne h
        · exact hnm h
      · exact Or.inr (Or.inr hm)
    · rintro (⟨hfs, hnot⟩ | (hb | hm))
      · exact Or.inl ⟨Or.inr ⟨fun h => hnot (Or.inl h), hfs⟩,
          fun h => hnot (Or.inr h)⟩
      · exact Or.inl ⟨Or.inl hb, hb ▸ hbf⟩
      · exact Or.inr hm

theorem stagedOf_map_original (w : World) :
    ∀ (i : Nat) (cs : List Cand),
    (stagedOf w i cs).map (·.originalPath) = cs.map (·.original) := by
  intro i cs
  induction cs generalizing i with
  | nil => rfl
  | cons c rest ih => simp [stagedOf, ih]

theorem stagedOf_map_target (w : World) :
    ∀ (i : Nat) (cs : List Cand),
    (stagedOf w i cs).map (·.targetPath) = cs.map (·.target) := by
  intro i cs
  induction cs generalizing i with
  | nil => rfl
  | cons c rest ih => simp [stagedOf, ih]

theorem stagedOf_length (w : World) :
    ∀ (i : Nat) (cs : List Cand), (stagedOf w i cs).length = cs.length := by
  intro i cs
  induction cs generalizing i with
  | nil => rfl
  | cons c rest ih => simp [stagedOf, ih]

/-- The staging loop succeeds when no fault is scheduled and each original
(all distinct) is present, producing exactly the batch of
original-to-temp renames. -/
theorem stageLoop_ok (w : World) (sched : FaultSched)
    (hs : sched.stageFail = none) :
    ∀ (cs : List Cand) (i : Nat) (fs : Finset Path) (acc : List StagedRename),
    (cs.map (·.original)).Nodup →
    (∀ c ∈ cs, c.original ∈ fs) →
    stageLoop w sched i fs cs acc =
      .inr (applyRenames
              ((stagedOf w i cs).map (fun e => (e.originalPath, e.tempPath))) fs,
            acc ++ stagedOf w i cs) := by
  intro cs
  induction cs with
  | nil =>
    intro i fs acc _ _
    simp [stageLoop, stagedOf, applyRenames]
  | cons c rest ih =>
    intro i fs acc h1 h2
    have hc : c.original ∈ fs := h2 c (List.mem_cons_self _ _)
    have hanf : c.original ∉ rest.map (·.original) :=
      (List.nodup_cons.mp h1).1
    have h1' : (rest.map (·.original)).Nodup := (List.nodup_cons.mp h1).2
    have h2' : ∀ d ∈ rest, d.original ∈
        insert (tempPathFor w c.original i) (fs.erase c.original) := by
      intro d hd
      have hdfs : d.original ∈ fs := h2 d (List.mem_cons_of_mem _ hd)
      have hda : d.original ≠ c.original := by
        intro hh
        exact hanf (hh ▸ List.mem_map.mpr ⟨d, hd, rfl⟩)
      exact Finset.mem_insert_of_mem (Finset.mem_erase.mpr ⟨hda, hdfs⟩)
    have hzz : (if sched.stageFail = some i then none
        else renameFs fs c.original (tempPathFor w c.original i)) =
        some (insert (tempPathFor w c.original i) (fs.erase c.original)) := by
      rw [hs]
      rw [if_neg (by simp)]
      simp [renameFs, hc]
    unfold stageLoop
    rw [hzz]
    dsimp only
    refine (ih (i + 1) (insert (tempPathFor w c.original i) (fs.erase c.original))
      (acc ++ [⟨c.original, c.target, tempPathFor w c.original i⟩]) h1' h2').trans ?_
    simp only [stagedOf, List.map_cons, Sum.inr.injEq, Prod.mk.injEq]
    constructor
    · simp [applyRenames, hc]
    · simp

/-- The commit loop, when the scheduled fault index lies inside the
remaining suffix, commits exactly the prefix before the fault and rolls
back from there. -/
theorem commitLoop_fail (sched : FaultSched) (stagedAll : List StagedRename)
    (n : Nat) (hn : sched.commitFail = some n) :
    ∀ (rem : List StagedRename) (i : Nat) (fs : Finset Path),
    i ≤ n → n < i + rem.length →
    (rem.map (·.tempPath)).Nodup →
    (∀ e ∈ rem, e.tempPath ∈ fs) →
    commitLoop sched stagedAll i fs rem =
      .inl (rollbackAfterFinalRenameFailure stagedAll n
        (applyRenames
          ((rem.take (n - i)).map (fun e => (e.tempPath, e.targetPath))) fs)) := by
  intro rem
  induction rem with
  | nil =>
    intro i fs h1 h2 _ _
    simp at h2
    omega
  | cons e rest ih =>
    intro i fs hi hlen h1 h2
    by_cases hin : i = n
    · subst hin
      unfold commitLoop
      rw [hn]
      simp [applyRenames]
    · have hne : ¬ sched.commitFail = some i := by
        rw [hn]
        simp
        omega
      have he : e.tempPath ∈ fs := h2 e (List.mem_cons_self _ _)
      have hanf : e.tempPath ∉ rest.map (·.tempPath) := (List.nodup_cons.mp h1).1
      have h1' : (rest.map (·.tempPath)).Nodup := (List.nodup_cons.mp h1).2
      have h2' : ∀ d ∈ rest, d.tempPath ∈
          insert e.targetPath (fs.erase e.tempPath) := by
        intro d hd
        have hdfs : d.tempPath ∈ fs := h2 d (List.mem_cons_of_mem _ hd)
        have hda : d.tempPath ≠ e.tempPath := by
          intro hh
          exact hanf (hh ▸ List.mem_map.mpr ⟨d, hd, rfl⟩)
        exact Finset.mem_insert_of_mem (Finset.mem_erase.mpr ⟨hda, hdfs⟩)
      have hzz : (if sched.commitFail = some i then none
          else renameFs fs e.tempPath e.targetPath) =
          some (insert e.targetPath (fs.erase e.tempPath)) := by
        rw [if_neg hne]
        simp [renameFs, he]
      unfold commitLoop
      rw [hzz]
      dsimp only
      refine (ih (i + 1) (insert e.targetPath (fs.erase e.tempPath)) (by omega)
        (by simp at hlen ⊢; omega) h1' h2').trans ?_
      have htake : (e :: rest).take (n - i) =
          e :: rest.take (n - (i + 1)) := by
        have heq : n - i = (n - (i + 1)) + 1 := by omega
        rw [heq, List.take_succ_cons]
      rw [htake]
      simp [applyRenames, he]

/-- The commit loop succeeds with no scheduled fault, performing exactly
the batch of temp-to-target renames. -/
theorem commitLoop_ok (sched : FaultSched) (stagedAll : List StagedRename)
    (hn : sched.commitFail = none) :
    ∀ (rem : List StagedRename) (i : Nat) (fs : Finset Path),
    (rem.map (·.tempPath)).Nodup →
    (∀ e ∈ rem, e.tempPath ∈ fs) →
    commitLoop sched stagedAll i fs rem =
      .inr (applyRenames (rem.map (fun e => (e.tempPath, e.targetPath))) fs) := by
  intro rem
  induction rem with
  | nil =>
    intro i fs _ _
    simp [commitLoop, applyRenames]
  | cons e rest ih =>
    intro i fs h1 h2
    have he : e.tempPath ∈ fs := h2 e (List.mem_cons_self _ _)
    have hanf : e.tempPath ∉ rest.map (·.tempPath) := (List.nodup_cons.mp h1).1
    have h1' : (rest.map (·.tempPath)).Nodup := (List.nodup_cons.mp h1).2
    have h2' : ∀ d ∈ rest, d.tempPath ∈
        insert e.targetPath (fs.erase e.tempPath) := by
      intro d hd
      have hdfs : d.tempPath ∈ fs := h2 d (List.mem_cons_of_mem _ hd)
      have hda : d.tempPath ≠ e.tempPath := by
        intro hh
        exact hanf (hh ▸ List.mem_map.mpr ⟨d, hd, rfl⟩)
      exact Finset.mem_insert_of_mem (Finset.mem_erase.mpr ⟨hda, hdfs⟩)
    have hzz : (if sched.commitFail = some i then none
        else renameFs fs e.tempPath e.targetPath) =
        some (insert e.targetPath (fs.erase e.tempPath)) := by
      rw [hn]
      rw [if_neg (by simp)]
      simp [renameFs, he]
    unfold commitLoop
    rw [hzz]
    dsimp only
    refine (ih (i + 1) (insert e.targetPath (fs.erase e.tempPath)) h1' h2').trans ?_
    simp [applyRenames, he]

/-- The restore fold reverses every operation when each target (all
distinct) is present, counting them all. -/
theorem restoreFold_ok :
    ∀ (l : List RenameOp) (k : Nat) (fs : Finset Path),
    (l.map (·.toPath)).Nodup →
    (∀ op ∈ l, op.toPath ∈ fs) →
    l.foldl
      (fun acc op =>
        if op.toPath ∈ acc.2 then
          (acc.1 + 1, insert op.fromPath (acc.2.erase op.toPath))
        else acc)
      (k, fs) =
      (k + l.length,
       applyRenames (l.map (fun o => (o.toPath, o.fromPath))) fs) := by
  intro l
  induction l with
  | nil =>
    intro k fs _ _
    simp [applyRenames]
  | cons op rest ih =>
    intro k fs h1 h2
    have ho : op.toPath ∈ fs := h2 op (List.mem_cons_self _ _)
    have hanf : op.toPath ∉ rest.map (·.toPath) := (List.nodup_cons.mp h1).1
    have h1' : (rest.map (·.toPath)).Nodup := (List.nodup_cons.mp h1).2
    have h2' : ∀ d ∈ rest, d.toPath ∈
        insert op.fromPath (fs.erase op.toPath) := by
      intro d hd
      have hdfs : d.toPath ∈ fs := h2 d (List.mem_cons_of_mem _ hd)
      have hda : d.toPath ≠ op.toPath := by
        intro hh
        exact hanf (hh ▸ List.mem_map.mpr ⟨d, hd, rfl⟩)
      exact Finset.mem_insert_of_mem (Finset.mem_erase.mpr ⟨hda, hdfs⟩)
    simp only [List.foldl_cons, if_pos ho]
    refine (ih (k + 1) (insert op.fromPath (fs.erase op.toPath)) h1' h2').trans ?_
    simp only [Prod.mk.injEq]
    constructor
    · simp only [List.length_cons]
      omega
    · simp [applyRenames, ho]

theorem dropLast_append_getLastD {α : Type} :
    ∀ {p : List α}, p ≠ [] → ∀ (d : α), p.dropLast ++ [p.getLastD d] = p := by
  intro p
  induction p with
  | nil => intro h; exact absurd rfl h
  | cons a l ih =>
    intro _ d
    cases l with
    | nil => rfl
    | cons b m =>
      have h2 := ih (by simp) a
      simp only [List.getLastD_cons] at h2
      simp only [List.dropLast_cons₂, List.getLastD_cons, List.cons_append]
      rw [h2]

theorem planJpgRoots_ne (plan : Plan) : planJpgRoots plan ≠ [] := by
  unfold planJpgRoots
  split <;> simp_all

theorem pathWithinAnyRoot_iff (p : Path) (roots : List Path) :
    pathWithinAnyRoot p roots = true ↔
      ∃ r ∈ roots, r.isPrefixOf p = true := by
  simp [pathWithinAnyRoot, List.any_eq_true]

theorem canonicalizeRootsLoop_ok (w : World) :
    ∀ (raw : List Path) (seen : Finset Path) (acc : List Path),
    (∀ r ∈ raw, w.canon r = some r) →
    (∀ r ∈ raw, w.isDir r = true) →
    ∃ R, canonicalizeRootsLoop w seen acc raw = .ok R ∧
      (∀ x, x ∈ R ↔ x ∈ acc ∨ (x ∈ raw ∧ x ∉ seen)) := by
  intro raw
  induction raw with
  | nil =>
    intro seen acc _ _
    exact ⟨acc, rfl, by simp⟩
  | cons r rest ih =>
    intro seen acc hc hd
    have hcr := hc r (List.mem_cons_self _ _)
    have hdr := hd r (List.mem_cons_self _ _)
    have hc' : ∀ q ∈ rest, w.canon q = some q :=
      fun q hq => hc q (List.mem_cons_of_mem _ hq)
    have hd' : ∀ q ∈ rest, w.isDir q = true :=
      fun q hq => hd q (List.mem_cons_of_mem _ hq)
    unfold canonicalizeRootsLoop
    rw [hcr]
    dsimp only
    rw [if_pos hdr]
    by_cases hseen : r ∈ seen
    · rw [if_pos hseen]
      obtain ⟨R, hR, hmem⟩ := ih seen acc hc' hd'
      refine ⟨R, hR, fun x => ?_⟩
      rw [hmem x]
      constructor
      · rintro (h | ⟨h1, h2⟩)
        · exact Or.inl h
        · exact Or.inr ⟨List.mem_cons_of_mem _ h1, h2⟩
      · rintro (h | ⟨h1, h2⟩)
        · exact Or.inl h
        · rcases List.mem_cons.mp h1 with h3 | h3
          · exact absurd (h3 ▸ hseen) h2
          · exact Or.inr ⟨h3, h2⟩
    · rw [if_neg hseen]
      obtain ⟨R, hR, hmem⟩ := ih (insert r seen) (acc ++ [r]) hc' hd'
      refine ⟨R, hR, fun x => ?_⟩
      rw [hmem x]
      simp only [List.mem_append, List.mem_cons, List.not_mem_nil, or_false,
        Finset.mem_insert]
      by_cases hxr : x = r
      · subst hxr
        simp [hseen]
      · simp only [hxr, false_or, or_false]

theorem canonicalizeJpgRoots_ok (w : World) (raw : List Path)
    (hne : raw ≠ [])
    (hc : ∀ r ∈ raw, w.canon r = some r)
    (hd : ∀ r ∈ raw, w.isDir r = true) :
    ∃ R, canonicalizeJpgRoots w raw = .ok R ∧ (∀ x, x ∈ R ↔ x ∈ raw) := by
  obtain ⟨R, hR, hmem⟩ := canonicalizeRootsLoop_ok w raw ∅ [] hc hd
  refine ⟨R, ?_, fun x => ?_⟩
  · unfold canonicalizeJpgRoots
    rw [if_neg hne]
    exact hR
  · rw [hmem x]
    simp

theorem validateCandsLoop_ok (w : World) (roots : List Path)
    (hc : ∀ p, w.canon p = some p) :
    ∀ (cs : List Cand) (seenO seenT : Finset Path),
    (∀ c ∈ cs, pathWithinAnyRoot c.original roots = true) →
    (∀ c ∈ cs, c.target ≠ []) →
    (∀ c ∈ cs, pathWithinAnyRoot c.target.dropLast roots = true) →
    (cs.map (·.original)).Nodup →
    (cs.map (·.target)).Nodup →
    (∀ c ∈ cs, c.original ∉ seenO) →
    (∀ c ∈ cs, c.target ∉ seenT) →
    validateCandsLoop w roots seenO seenT cs = .ok () := by
  intro cs
  induction cs with
  | nil =>
    intro seenO seenT _ _ _ _ _ _ _
    rfl
  | cons c rest ih =>
    intro seenO seenT ho ht htp hno hnt hsO hsT
    have hnorm : c.target.dropLast ++ [c.target.getLastD ""] = c.target :=
      dropLast_append_getLastD (ht c (List.mem_cons_self _ _)) ""
    unfold validateCandsLoop
    rw [hc c.original]
    dsimp only
    rw [if_pos (ho c (List.mem_cons_self _ _))]
    rw [if_neg (hsO c (List.mem_cons_self _ _))]
    rw [if_neg (ht c (List.mem_cons_self _ _))]
    rw [hc c.target.dropLast]
    dsimp only
    rw [if_pos (htp c (List.mem_cons_self _ _))]
    rw [hnorm]
    rw [if_neg (hsT c (List.mem_cons_self _ _))]
    apply ih (insert c.original seenO) (insert c.target seenT)
    · exact fun d hd => ho d (List.mem_cons_of_mem _ hd)
    · exact fun d hd => ht d (List.mem_cons_of_mem _ hd)
    · exact fun d hd => htp d (List.mem_cons_of_mem _ hd)
    · exact (List.nodup_cons.mp hno).2
    · exact (List.nodup_cons.mp hnt).2
    · intro d hd
      have hne : d.original ≠ c.original := by
        intro hh
        exact (List.nodup_cons.mp hno).1 (List.mem_map.mpr ⟨d, hd, hh⟩)
      intro hmem
      rcases Finset.mem_insert.mp hmem with h | h
      · exact hne h
      · exact hsO d (List.mem_cons_of_mem _ hd) h
    · intro d hd
      have hne : d.target ≠ c.target := by
        intro hh
        exact (List.nodup_cons.mp hnt).1 (List.mem_map.mpr ⟨d, hd, hh⟩)
      intro hmem
      rcases Finset.mem_insert.mp hmem with h | h
      · exact hne h
      · exact hsT d (List.mem_cons_of_mem _ hd) h

/-- Under a `GoodPlan`, apply-side validation passes. -/
theorem validateApplyCandidates_ok (w : World) (st : St) (plan : Plan)
    (hg : GoodPlan w st plan) :
    validateApplyCandidates w plan (changedCands plan) = .ok () := by
  obtain ⟨R, hR, hmem⟩ := canonicalizeJpgRoots_ok w (planJpgRoots plan)
    (planJpgRoots_ne plan) (fun r _ => hg.canonId r) hg.rootsDir
  unfold validateApplyCandidates
  rw [hR]
  apply validateCandsLoop_ok w R hg.canonId
  · intro c hcm
    rw [pathWithinAnyRoot_iff]
    obtain ⟨r, hr1, hr2⟩ := hg.origInRoot c hcm
    exact ⟨r, (hmem r).mpr hr1, hr2⟩
  · exact hg.targetNe
  · intro c hcm
    rw [pathWithinAnyRoot_iff]
    obtain ⟨r, hr1, hr2⟩ := hg.targetParentInRoot c hcm
    exact ⟨r, (hmem r).mpr hr1, hr2⟩
  · exact hg.origsNodup
  · exact hg.targetsNodup
  · exact fun c _ => Finset.not_mem_empty c.original
  · exact fun c _ => Finset.not_mem_empty c.target

theorem normalizePathWithinRoots_id (w : World) (roots : List Path)
    (p : Path) (hc : ∀ q, w.canon q = some q) (hne : p ≠ [])
    (hw : pathWithinAnyRoot p.dropLast roots = true) :
    normalizePathWithinRoots w roots p = .ok p := by
  unfold normalizePathWithinRoots
  rw [if_neg hne, hc p.dropLast]
  dsimp only
  rw [if_pos hw, dropLast_append_getLastD hne]

theorem validateOpsLoop_ok (w : World) (roots : List Path)
    (hc : ∀ p, w.canon p = some p) :
    ∀ (ops : List RenameOp) (seenF seenT : Finset Path),
    (∀ op ∈ ops, op.fromPath ≠ [] ∧
      pathWithinAnyRoot op.fromPath.dropLast roots = true) →
    (∀ op ∈ ops, op.toPath ≠ [] ∧
      pathWithinAnyRoot op.toPath.dropLast roots = true) →
    (ops.map (·.fromPath)).Nodup →
    (ops.map (·.toPath)).Nodup →
    (∀ op ∈ ops, op.fromPath ∉ seenF) →
    (∀ op ∈ ops, op.toPath ∉ seenT) →
    validateOpsLoop w roots seenF seenT ops = .ok ops := by
  intro ops
  induction ops with
  | nil =>
    intro seenF seenT _ _ _ _ _ _
    rfl
  | cons op rest ih =>
    intro seenF seenT hf ht hnf hnt hsF hsT
    obtain ⟨hfne, hfw⟩ := hf op (List.mem_cons_self _ _)
    obtain ⟨htne, htw⟩ := ht op (List.mem_cons_self _ _)
    unfold validateOpsLoop
    rw [normalizePathWithinRoots_id w roots op.fromPath hc hfne hfw]
    dsimp only
    rw [normalizePathWithinRoots_id w roots op.toPath hc htne htw]
    dsimp only
    rw [if_neg (hsF op (List.mem_cons_self _ _))]
    rw [if_neg (hsT op (List.mem_cons_self _ _))]
    rw [ih (insert op.fromPath seenF) (insert op.toPath seenT)
      (fun d hd => hf d (List.mem_cons_of_mem _ hd))
      (fun d hd => ht d (List.mem_cons_of_mem _ hd))
      (List.nodup_cons.mp hnf).2 (List.nodup_cons.mp hnt).2
      (by
        intro d hd hmem
        rcases Finset.mem_insert.mp hmem with h | h
        · exact (List.nodup_cons.mp hnf).1 (List.mem_map.mpr ⟨d, hd, h⟩)
        · exact hsF d (List.mem_cons_of_mem _ hd) h)
      (by
        intro d hd hmem
        rcases Finset.mem_insert.mp hmem with h | h
        · exact (List.nodup_cons.mp hnt).1 (List.mem_map.mpr ⟨d, hd, h⟩)
        · exact hsT d (List.mem_cons_of_mem _ hd) h)]

/-! ### C4: validation rejects violations before any mutation -/

theorem canonicalizeRootsLoop_spec_roots (w : World) :
    ∀ (raw : List Path) (seen : Finset Path) (acc : List Path) (R : List Path),
    canonicalizeRootsLoop w seen acc raw = .ok R →
    ∀ r ∈ raw, ∃ cr, w.canon r = some cr ∧ w.isDir cr = true := by
  intro raw
  induction raw with
  | nil =>
    intro seen acc R _ r hr
    exact absurd hr (List.not_mem_nil r)
  | cons r0 rest ih =>
    intro seen acc R h r hr
    unfold canonicalizeRootsLoop at h
    split at h
    next => exact absurd h (by simp)
    next cr hcr =>
      split at h
      next hdir =>
        rcases List.mem_cons.mp hr with h2 | h2
        · exact ⟨cr, h2 ▸ hcr, hdir⟩
        · split at h
          · exact ih seen acc R h r h2
          · exact ih (insert cr seen) (acc ++ [cr]) R h r h2
      next => exact absurd h (by simp)

theorem canonicalizeRootsLoop_spec_mem (w : World) :
    ∀ (raw : List Path) (seen : Finset Path) (acc : List Path) (R : List Path),
    canonicalizeRootsLoop w seen acc raw = .ok R →
    ∀ x ∈ R, x ∈ acc ∨ ∃ r ∈ raw, w.canon r = some x := by
  intro raw
  induction raw with
  | nil =>
    intro seen acc R h x hx
    have : R = acc := by
      simpa [canonicalizeRootsLoop] using h.symm
    exact Or.inl (this ▸ hx)
  | cons r0 rest ih =>
    intro seen acc R h x hx
    unfold canonicalizeRootsLoop at h
    split at h
    next => exact absurd h (by simp)
    next cr hcr =>
      split at h
      next hdir =>
        split at h
        · rcases ih seen acc R h x hx with h2 | ⟨r, hr1, hr2⟩
          · exact Or.inl h2
          · exact Or.inr ⟨r, List.mem_cons_of_mem _ hr1, hr2⟩
        · rcases ih (insert cr seen) (acc ++ [cr]) R h x hx with h2 | ⟨r, hr1, hr2⟩
          · rcases List.mem_append.mp h2 with h3 | h3
            · exact Or.inl h3
            · have : x = cr := by simpa using h3
              exact Or.inr ⟨r0, List.mem_cons_self _ _, this ▸ hcr⟩
          · exact Or.inr ⟨r, List.mem_cons_of_mem _ hr1, hr2⟩
      next => exact absurd h (by simp)

theorem validateCandsLoop_spec (w : World) (roots : List Path) :
    ∀ (cs : List Cand) (seenO seenT : Finset Path),
    validateCandsLoop w roots seenO seenT cs = .ok () →
    (∀ c ∈ cs, ∃ oc, w.canon c.original = some oc ∧
      pathWithinAnyRoot oc roots = true) ∧
    (∀ c ∈ cs, c.target ≠ [] ∧ ∃ pc, w.canon c.target.dropLast = some pc ∧
      pathWithinAnyRoot pc roots = true) ∧
    (cs.map (fun c => w.canon c.original)).Nodup ∧
    (cs.map (fun c => (w.canon c.target.dropLast).map
      (fun pc => pc ++ [c.target.getLastD ""]))).Nodup ∧
    (∀ c ∈ cs, ∀ oc, w.canon c.original = some oc → oc ∉ seenO) ∧
    (∀ c ∈ cs, ∀ pc, w.canon c.target.dropLast = some pc →
      pc ++ [c.target.getLastD ""] ∉ seenT) := by
  intro cs
  induction cs with
  | nil =>
    intro seenO seenT _
    refine ⟨?_, ?_, ?_, ?_, ?_, ?_⟩ <;> simp
  | cons c rest ih =>
    intro seenO seenT h
    unfold validateCandsLoop at h
    split at h
    next => exact absurd h (by simp)
    next oc hoc =>
      split at h
      next hwithin =>
        split at h
        next => exact absurd h (by simp)
        next hseenO =>
          split at h
          next => exact absurd h (by simp)
          next htne =>
            split at h
            next => exact absurd h (by simp)
            next pc hpc =>
              split at h
              next hwithin2 =>
                split at h
                next => exact absurd h (by simp)
                next hseenT =>
                  obtain ⟨ih1, ih2, ih3, ih4, ih5, ih6⟩ := ih _ _ h
                  refine ⟨?_, ?_, ?_, ?_, ?_, ?_⟩
                  · intro d hd
                    rcases List.mem_cons.mp hd with h2 | h2
                    · subst h2
                      exact ⟨oc, hoc, hwithin⟩
                    · exact ih1 d h2
                  · intro d hd
                    rcases List.mem_cons.mp hd with h2 | h2
                    · subst h2
                      exact ⟨htne, pc, hpc, hwithin2⟩
                    · exact ih2 d h2
                  · rw [List.map_cons, List.nodup_cons]
                    refine ⟨?_, ih3⟩
                    intro hmem
                    rcases List.mem_map.mp hmem with ⟨d, hd, hde⟩
                    obtain ⟨od, hod, _⟩ := ih1 d hd
                    have hoo : od = oc := by
                      rw [hoc] at hde
                      rw [hod] at hde
                      exact Option.some.inj hde
                    exact ih5 d hd od hod (hoo ▸ Finset.mem_insert_self oc seenO)
                  · rw [List.map_cons, List.nodup_cons]
                    refine ⟨?_, ih4⟩
                    intro hmem
                    rcases List.mem_map.mp hmem with ⟨d, hd, hde⟩
                    obtain ⟨_, pd, hpd, _⟩ := ih2 d hd
                    rw [hpc] at hde
                    rw [hpd] at hde
                    simp only [Option.map_some'] at hde
                    have := Option.some.inj hde
                    exact ih6 d hd pd hpd
                      (this ▸ Finset.mem_insert_self _ seenT)
                  · intro d hd od hod
                    rcases List.mem_cons.mp hd with h2 | h2
                    · subst h2
                      rw [hoc] at hod
                      exact (Option.some.inj hod) ▸ hseenO
                    · intro hmem
                      exact ih5 d h2 od hod (Finset.mem_insert_of_mem hmem)
                  · intro d hd pd hpd
                    rcases List.mem_cons.mp hd with h2 | h2
                    · subst h2
                      rw [hpc] at hpd
                      exact (Option.some.inj hpd) ▸ hseenT
                    · intro hmem
                      exact ih6 d h2 pd hpd (Finset.mem_insert_of_mem hmem)
              next => exact absurd h (by simp)
      next => exact absurd h (by simp)

/-- Apply-side validation succeeding implies the spec's validation
conditions. -/
theorem validateApplyCandidates_spec (w : World) (plan : Plan)
    (h : validateApplyCandidates w plan (changedCands plan) = .ok ()) :
    ValidationSpec w plan := by
  unfold validateApplyCandidates at h
  split at h
  next => exact absurd h (by simp)
  next R hR =>
    have hroots : ∀ r ∈ planJpgRoots plan,
        ∃ cr, w.canon r = some cr ∧ w.isDir cr = true := by
      unfold canonicalizeJpgRoots at hR
      split at hR
      · exact absurd hR (by simp)
      · exact canonicalizeRootsLoop_spec_roots w (planJpgRoots plan) ∅ [] R hR
    have hRmem : ∀ x ∈ R, ∃ r ∈ planJpgRoots plan, w.canon r = some x := by
      intro x hx
      unfold canonicalizeJpgRoots at hR
      split at hR
      · exact absurd hR (by simp)
      · rcases canonicalizeRootsLoop_spec_mem w (planJpgRoots plan) ∅ [] R hR
          x hx with h2 | h2
        · exact absurd h2 (List.not_mem_nil x)
        · exact h2
    obtain ⟨h1, h2, h3, h4, _, _⟩ := validateCandsLoop_spec w R
      (changedCands plan) ∅ ∅ h
    refine ⟨hroots, ?_, ?_, h3, h4⟩
    · intro c hc
      obtain ⟨oc, hoc, hw⟩ := h1 c hc
      rw [pathWithinAnyRoot_iff] at hw
      obtain ⟨r, hrR, hpre⟩ := hw
      obtain ⟨r0, hr0, hr0c⟩ := hRmem r hrR
      exact ⟨oc, hoc, r0, hr0, r, hr0c, hpre⟩
    · intro c hc
      obtain ⟨htne, pc, hpc, hw⟩ := h2 c hc
      rw [pathWithinAnyRoot_iff] at hw
      obtain ⟨r, hrR, hpre⟩ := hw
      obtain ⟨r0, hr0, hr0c⟩ := hRmem r hrR
      exact ⟨htne, pc, hpc, r0, hr0, r, hr0c, hpre⟩

/-- C4: before any mutation, apply validates the changed candidates —
canonicalized roots, originals and target parents canonicalizing inside a
root, and no duplicate canonical originals or parent-normalized targets;
when any of these conditions fails on a non-empty changed set, apply
returns an error with the state (filesystem and journal) untouched. -/
theorem apply_validation_rejects_violations (w : World) (sched : FaultSched)
    (fuel : Nat) (st : St) (plan : Plan) (options : ApplyOptions)
    (hne : changedCands plan ≠ []) (hviol : ¬ ValidationSpec w plan) :
    (applyPlan w sched fuel st plan options).1.isOk = false ∧
    (applyPlan w sched fuel st plan options).2 = st := by
  rcases hv : validateApplyCandidates w plan (changedCands plan) with e | u
  case ok =>
    cases u
    exact absurd (validateApplyCandidates_spec w plan hv) hviol
  case error =>
    unfold applyPlan
    rw [if_neg hne, hv]
    exact ⟨rfl, rfl⟩

/-- Witness for C4: a changed candidate whose target has no parent
component is rejected with no state change. -/
theorem apply_validation_rejects_violations_witness :
    (applyPlan idWorld ⟨none, none, false⟩ 0 twoCandSt badTargetPlan
      ⟨false⟩).1.isOk = false ∧
    (applyPlan idWorld ⟨none, none, false⟩ 0 twoCandSt badTargetPlan
      ⟨false⟩).2 = twoCandSt :=
  apply_validation_rejects_violations idWorld ⟨none, none, false⟩ 0 twoCandSt
    badTargetPlan ⟨false⟩ (by decide)
    (fun hs => (hs.2.2.1 ⟨["root", "a.jpg"], [], true⟩ (by decide)).1 rfl)

/-! ### C1: commit-phase failure is all-or-nothing -/

theorem mem_applyRenames_reverse (x : Path) (ps : List (Path × Path))
    (fs : Finset Path)
    (h1 : (ps.map Prod.fst).Nodup)
    (h2 : ∀ p ∈ ps, p.1 ∈ fs)
    (h3 : ∀ p ∈ ps, ∀ q ∈ ps, p.1 ≠ q.2) :
    x ∈ applyRenames ps.reverse fs ↔
      (x ∈ fs ∧ x ∉ ps.map Prod.fst) ∨ x ∈ ps.map Prod.snd := by
  have h1' : (ps.reverse.map Prod.fst).Nodup := by
    rw [List.map_reverse]
    exact List.nodup_reverse.mpr h1
  have h2' : ∀ p ∈ ps.reverse, p.1 ∈ fs := fun p hp =>
    h2 p (List.mem_reverse.mp hp)
  have h3' : ∀ p ∈ ps.reverse, ∀ q ∈ ps.reverse, p.1 ≠ q.2 := fun p hp q hq =>
    h3 p (List.mem_reverse.mp hp) q (List.mem_reverse.mp hq)
  rw [mem_applyRenames x ps.reverse fs h1' h2' h3']
  simp [List.map_reverse, List.mem_reverse]

/-- C1: when the commit-phase rename of the `n`-th changed candidate
fails and the rollback succeeds (rollback renames only act on present
sources, so they cannot fail in the model), apply returns an error, the
filesystem is exactly the starting one, the journal is untouched, every
original is present at its original path, no target path exists, and no
temporary staging file remains. -/
theorem apply_commit_failure_all_or_nothing (w : World) (st : St)
    (plan : Plan) (fuel : Nat) (n : Nat) (hg : GoodPlan w st plan)
    (hn : n < (changedCands plan).length) :
    (applyPlan w ⟨none, some n, false⟩ fuel st plan ⟨false⟩).1.isOk = false ∧
    (applyPlan w ⟨none, some n, false⟩ fuel st plan ⟨false⟩).2.fs = st.fs ∧
    (applyPlan w ⟨none, some n, false⟩ fuel st plan ⟨false⟩).2.journal =
      st.journal ∧
    (∀ c ∈ changedCands plan,
      c.original ∈ (applyPlan w ⟨none, some n, false⟩ fuel st plan ⟨false⟩).2.fs) ∧
    (∀ c ∈ changedCands plan,
      c.target ∉ (applyPlan w ⟨none, some n, false⟩ fuel st plan ⟨false⟩).2.fs) ∧
    (∀ p ∈ tempsOf w plan,
      p ∉ (applyPlan w ⟨none, some n, false⟩ fuel st plan ⟨false⟩).2.fs) := by
  have hgne : changedCands plan ≠ [] := by
    intro hnil
    rw [hnil] at hn
    simp at hn
  have hval := validateApplyCandidates_ok w st plan hg
  -- abbreviations
  have hOmem : ∀ c ∈ changedCands plan, c.original ∈ origsOf plan :=
    fun c hc => List.mem_map.mpr ⟨c, hc, rfl⟩
  have hTmem : ∀ c ∈ changedCands plan, c.target ∈ targetsOf plan :=
    fun c hc => List.mem_map.mpr ⟨c, hc, rfl⟩
  have hstagedO : (stagedOf w 0 (changedCands plan)).map (·.originalPath) =
      origsOf plan := stagedOf_map_original w 0 (changedCands plan)
  have hstagedT : (stagedOf w 0 (changedCands plan)).map (·.targetPath) =
      targetsOf plan := stagedOf_map_target w 0 (changedCands plan)
  have hePO : ∀ e ∈ stagedOf w 0 (changedCands plan),
      e.originalPath ∈ origsOf plan := by
    intro e he
    rw [← hstagedO]
    exact List.mem_map.mpr ⟨e, he, rfl⟩
  have hePT : ∀ e ∈ stagedOf w 0 (changedCands plan),
      e.targetPath ∈ targetsOf plan := by
    intro e he
    rw [← hstagedT]
    exact List.mem_map.mpr ⟨e, he, rfl⟩
  have hePP : ∀ e ∈ stagedOf w 0 (changedCands plan),
      e.tempPath ∈ tempsOf w plan :=
    fun e he => List.mem_map.mpr ⟨e, he, rfl⟩
  -- stage phase
  have hstage := stageLoop_ok w ⟨none, some n, false⟩ rfl (changedCands plan)
    0 st.fs [] hg.origsNodup
    (fun c hc => hg.origsExist c.original (hOmem c hc))
  -- membership after staging
  have hfst1 : ((stagedOf w 0 (changedCands plan)).map
      (fun e => (e.originalPath, e.tempPath))).map Prod.fst = origsOf plan := by
    rw [List.map_map]
    exact hstagedO
  have hsnd1 : ((stagedOf w 0 (changedCands plan)).map
      (fun e => (e.originalPath, e.tempPath))).map Prod.snd =
      tempsOf w plan := by
    rw [List.map_map]
    rfl
  have hm1 : ∀ x, x ∈ applyRenames
      ((stagedOf w 0 (changedCands plan)).map
        (fun e => (e.originalPath, e.tempPath))) st.fs ↔
      (x ∈ st.fs ∧ x ∉ origsOf plan) ∨ x ∈ tempsOf w plan := by
    intro x
    rw [mem_applyRenames x _ st.fs (by rw [hfst1]; exact hg.origsNodup)
      (by
        intro p hp
        rcases List.mem_map.mp hp with ⟨e, he, hpe⟩
        rw [← hpe]
        exact hg.origsExist e.originalPath (hePO e he))
      (by
        intro p hp q hq
        rcases List.mem_map.mp hp with ⟨e, he, hpe⟩
        rcases List.mem_map.mp hq with ⟨f, hf, hqe⟩
        subst hpe
        subst hqe
        intro hcon
        have hcon2 : e.originalPath = f.tempPath := hcon
        exact hg.origsNotTemps e.originalPath (hePO e he)
          (hcon2 ▸ hePP f hf))]
    rw [hfst1, hsnd1]
  -- commit phase fails at n
  have hlen : (stagedOf w 0 (changedCands plan)).length =
      (changedCands plan).length := stagedOf_length w 0 (changedCands plan)
  have hcommit := commitLoop_fail ⟨none, some n, false⟩
    (stagedOf w 0 (changedCands plan)) n rfl
    (stagedOf w 0 (changedCands plan)) 0
    (applyRenames ((stagedOf w 0 (changedCands plan)).map
      (fun e => (e.originalPath, e.tempPath))) st.fs)
    (by omega) (by omega) hg.tempsNodup
    (by
      intro e he
      exact (hm1 e.tempPath).mpr (Or.inr (hePP e he)))
  simp only [Nat.sub_zero] at hcommit
  -- membership after the committed prefix
  have hfst2 : (((stagedOf w 0 (changedCands plan)).take n).map
      (fun e => (e.tempPath, e.targetPath))).map Prod.fst =
      (tempsOf w plan).take n := by
    rw [List.map_map]
    show ((stagedOf w 0 (changedCands plan)).take n).map (·.tempPath) = _
    rw [List.map_take]
    rfl
  have hsnd2 : (((stagedOf w 0 (changedCands plan)).take n).map
      (fun e => (e.tempPath, e.targetPath))).map Prod.snd =
      (targetsOf plan).take n := by
    rw [List.map_map]
    show ((stagedOf w 0 (changedCands plan)).take n).map (·.targetPath) = _
    rw [List.map_take, hstagedT]
  have htkP : ∀ x, x ∈ (tempsOf w plan).take n → x ∈ tempsOf w plan :=
    fun x hx => List.take_subset n _ hx
  have htkT : ∀ x, x ∈ (targetsOf plan).take n → x ∈ targetsOf plan :=
    fun x hx => List.take_subset n _ hx
  have hm2 : ∀ x, x ∈ applyRenames
      (((stagedOf w 0 (changedCands plan)).take n).map
        (fun e => (e.tempPath, e.targetPath)))
      (applyRenames ((stagedOf w 0 (changedCands plan)).map
        (fun e => (e.originalPath, e.tempPath))) st.fs) ↔
      ((x ∈ st.fs ∧ x ∉ origsOf plan) ∨ x ∈ tempsOf w plan) ∧
        x ∉ (tempsOf w plan).take n ∨ x ∈ (targetsOf plan).take n := by
    intro x
    rw [mem_applyRenames x _ _
      (by
        rw [hfst2]
        exact hg.tempsNodup.sublist (List.take_sublist n _))
      (by
        intro p hp
        rcases List.mem_map.mp hp with ⟨e, he, hpe⟩
        rw [← hpe]
        exact (hm1 e.tempPath).mpr
          (Or.inr (hePP e (List.take_subset n _ he)))
      )
      (by
        intro p hp q hq
        rcases List.mem_map.mp hp with ⟨e, he, hpe⟩
        rcases List.mem_map.mp hq with ⟨f, hf, hqe⟩
        subst hpe
        subst hqe
        intro hcon
        have hcon2 : e.tempPath = f.targetPath := hcon
        exact hg.targetsNotTemps f.targetPath
          (hePT f (List.take_subset n _ hf))
          (hcon2 ▸ hePP e (List.take_subset n _ he)))]
    rw [hfst2, hsnd2, hm1 x]
  -- the two rollback passes
  have hm3 : ∀ x, x ∈ applyRenames
      ((((stagedOf w 0 (changedCands plan)).take n).map
        (fun e => (e.targetPath, e.tempPath))).reverse)
      (applyRenames
        (((stagedOf w 0 (changedCands plan)).take n).map
          (fun e => (e.tempPath, e.targetPath)))
        (applyRenames ((stagedOf w 0 (changedCands plan)).map
          (fun e => (e.originalPath, e.tempPath))) st.fs)) ↔
      ((((x ∈ st.fs ∧ x ∉ origsOf plan) ∨ x ∈ tempsOf w plan) ∧
          x ∉ (tempsOf w plan).take n ∨ x ∈ (targetsOf plan).take n) ∧
        x ∉ (targetsOf plan).take n) ∨ x ∈ (tempsOf w plan).take n := by
    intro x
    have hfst3 : (((stagedOf w 0 (changedCands plan)).take n).map
        (fun e => (e.targetPath, e.tempPath))).map Prod.fst =
        (targetsOf plan).take n := by
      rw [List.map_map]
      show ((stagedOf w 0 (changedCands plan)).take n).map (·.targetPath) = _
      rw [List.map_take, hstagedT]
    have hsnd3 : (((stagedOf w 0 (changedCands plan)).take n).map
        (fun e => (e.targetPath, e.tempPath))).map Prod.snd =
        (tempsOf w plan).take n := by
      rw [List.map_map]
      show ((stagedOf w 0 (changedCands plan)).take n).map (·.tempPath) = _
      rw [List.map_take]
      rfl
    rw [mem_applyRenames_reverse x _ _
      (by
        rw [hfst3]
        exact hg.targetsNodup.sublist (List.take_sublist n _))
      (by
        intro p hp
        rcases List.mem_map.mp hp with ⟨e, he, hpe⟩
        rw [← hpe]
        exact (hm2 e.targetPath).mpr
          (Or.inr (by
            have hmm : e.targetPath ∈
                ((stagedOf w 0 (changedCands plan)).take n).map
                  (·.targetPath) := List.mem_map.mpr ⟨e, he, rfl⟩
            rw [List.map_take, hstagedT] at hmm
            exact hmm)))
      (by
        intro p hp q hq
        rcases List.mem_map.mp hp with ⟨e, he, hpe⟩
        rcases List.mem_map.mp hq with ⟨f, hf, hqe⟩
        subst hpe
        subst hqe
        intro hcon
        have hcon2 : e.targetPath = f.tempPath := hcon
        exact hg.targetsNotTemps e.targetPath
          (hePT e (List.take_subset n _ he))
          (hcon2 ▸ hePP f (List.take_subset n _ hf)))]
    rw [hfst3, hsnd3, hm2 x]
  have hm4 : ∀ x, x ∈ rollbackStagedToOriginalPaths
      (stagedOf w 0 (changedCands plan))
      (applyRenames
        ((((stagedOf w 0 (changedCands plan)).take n).map
          (fun e => (e.targetPath, e.tempPath))).reverse)
        (applyRenames
          (((stagedOf w 0 (changedCands plan)).take n).map
            (fun e => (e.tempPath, e.targetPath)))
          (applyRenames ((stagedOf w 0 (changedCands plan)).map
            (fun e => (e.originalPath, e.tempPath))) st.fs))) ↔
      ((((((x ∈ st.fs ∧ x ∉ origsOf plan) ∨ x ∈ tempsOf w plan) ∧
            x ∉ (tempsOf w plan).take n ∨ x ∈ (targetsOf plan).take n) ∧
          x ∉ (targetsOf plan).take n) ∨ x ∈ (tempsOf w plan).take n) ∧
        x ∉ tempsOf w plan) ∨ x ∈ origsOf plan := by
    intro x
    have hfst4 : ((stagedOf w 0 (changedCands plan)).map
        (fun e => (e.tempPath, e.originalPath))).map Prod.fst =
        tempsOf w plan := by
      rw [List.map_map]
      rfl
    have hsnd4 : ((stagedOf w 0 (changedCands plan)).map
        (fun e => (e.tempPath, e.originalPath))).map Prod.snd =
        origsOf plan := by
      rw [List.map_map]
      exact hstagedO
    unfold rollbackStagedToOriginalPaths
    rw [mem_applyRenames_reverse x _ _
      (by
        rw [hfst4]
        exact hg.tempsNodup)
      (by
        intro p hp
        rcases List.mem_map.mp hp with ⟨e, he, hpe⟩
        rw [← hpe]
        apply (hm3 e.tempPath).mpr
        by_cases htk : e.tempPath ∈ (tempsOf w plan).take n
        · exact Or.inr htk
        · refine Or.inl ⟨Or.inl ⟨Or.inr (hePP e he), htk⟩, ?_⟩
          intro hcon
          exact hg.targetsNotTemps e.tempPath (htkT _ hcon) (hePP e he))
      (by
        intro p hp q hq
        rcases List.mem_map.mp hp with ⟨e, he, hpe⟩
        rcases List.mem_map.mp hq with ⟨f, hf, hqe⟩
        subst hpe
        subst hqe
        intro hcon
        have hcon2 : e.tempPath = f.originalPath := hcon
        exact hg.origsNotTemps f.originalPath (hePO f hf)
          (hcon2 ▸ hePP e he))]
    rw [hfst4, hsnd4, hm3 x]
  -- the fully rolled-back filesystem is the starting one
  have hfseq : rollbackStagedToOriginalPaths
      (stagedOf w 0 (changedCands plan))
      (applyRenames
        ((((stagedOf w 0 (changedCands plan)).take n).map
          (fun e => (e.targetPath, e.tempPath))).reverse)
        (applyRenames
          (((stagedOf w 0 (changedCands plan)).take n).map
            (fun e => (e.tempPath, e.targetPath)))
          (applyRenames ((stagedOf w 0 (changedCands plan)).map
            (fun e => (e.originalPath, e.tempPath))) st.fs))) = st.fs := by
    apply Finset.ext
    intro x
    rw [hm4 x]
    have hO : x ∈ origsOf plan → x ∈ st.fs := hg.origsExist x
    have hT : x ∈ targetsOf plan → x ∉ st.fs := hg.targetsFresh x
    have hP : x ∈ tempsOf w plan → x ∉ st.fs := hg.tempsFresh x
    have hOP : x ∈ origsOf plan → x ∉ tempsOf w plan := hg.origsNotTemps x
    have hPt := htkP x
    have hTt := htkT x
    tauto
  -- assemble the run
  have key : applyPlan w ⟨none, some n, false⟩ fuel st plan ⟨false⟩ =
      (.error "final-rename-failed", ⟨st.fs, st.journal⟩) := by
    unfold applyPlan
    rw [if_neg hgne, hval]
    dsimp only
    rw [if_neg (by simp)]
    dsimp only
    simp only [List.foldl_nil]
    rw [hstage]
    dsimp only
    simp only [List.nil_append]
    rw [hcommit]
    dsimp only
    unfold rollbackAfterFinalRenameFailure
    rw [hfseq]
  rw [key]
  refine ⟨rfl, rfl, rfl, ?_, ?_, ?_⟩
  · intro c hc
    exact hg.origsExist c.original (hOmem c hc)
  · intro c hc
    exact hg.targetsFresh c.target (hTmem c hc)
  · intro p hp
    exact hg.tempsFresh p hp

/-- Witness for C1 at a two-candidate plan with the second commit rename
failing. -/
theorem apply_commit_failure_all_or_nothing_witness :
    (applyPlan idWorld ⟨none, some 1, false⟩ 0 twoCandSt twoCandPlan
      ⟨false⟩).1.isOk = false ∧
    (applyPlan idWorld ⟨none, some 1, false⟩ 0 twoCandSt twoCandPlan
      ⟨false⟩).2.fs = twoCandSt.fs ∧
    (applyPlan idWorld ⟨none, some 1, false⟩ 0 twoCandSt twoCandPlan
      ⟨false⟩).2.journal = twoCandSt.journal ∧
    (∀ c ∈ changedCands twoCandPlan,
      c.original ∈ (applyPlan idWorld ⟨none, some 1, false⟩ 0 twoCandSt
        twoCandPlan ⟨false⟩).2.fs) ∧
    (∀ c ∈ changedCands twoCandPlan,
      c.target ∉ (applyPlan idWorld ⟨none, some 1, false⟩ 0 twoCandSt
        twoCandPlan ⟨false⟩).2.fs) ∧
    (∀ p ∈ tempsOf idWorld twoCandPlan,
      p ∉ (applyPlan idWorld ⟨none, some 1, false⟩ 0 twoCandSt twoCandPlan
        ⟨false⟩).2.fs) :=
  apply_commit_failure_all_or_nothing idWorld twoCandSt twoCandPlan 0 1
    ⟨fun p => rfl, by decide, by decide, by decide, by decide, by decide,
     by decide, by decide, by decide, by decide, by decide, by decide,
     by decide, by decide, by decide, by decide⟩
    (by decide)

/-! ### C2: successful apply followed by undo restores everything -/

/-- C2: with backups disabled and no fault scheduled, apply succeeds
(applied = number of changed candidates, unchanged = the rest) and
records a journal; an immediately following `undo_last` replays the
journal in reverse (to→from), reports exactly that count, restores every
renamed file so the filesystem equals the starting one, leaves no temp
file, and deletes the journal, so a second undo fails. -/
theorem apply_then_undo_restores (w : World) (st : St) (plan : Plan)
    (fuel : Nat) (hg : GoodPlan w st plan) (hne : changedCands plan ≠ []) :
    (applyPlan w ⟨none, none, false⟩ fuel st plan ⟨false⟩).1 =
      .ok ⟨(changedCands plan).length,
           plan.candidates.length - (changedCands plan).length⟩ ∧
    (undoLast w (applyPlan w ⟨none, none, false⟩ fuel st plan ⟨false⟩).2).1 =
      .ok ⟨(changedCands plan).length⟩ ∧
    (undoLast w
      (applyPlan w ⟨none, none, false⟩ fuel st plan ⟨false⟩).2).2.fs = st.fs ∧
    (undoLast w
      (applyPlan w ⟨none, none, false⟩ fuel st plan ⟨false⟩).2).2.journal =
      none ∧
    (∀ p ∈ tempsOf w plan,
      p ∉ (undoLast w
        (applyPlan w ⟨none, none, false⟩ fuel st plan ⟨false⟩).2).2.fs) ∧
    (∀ c ∈ changedCands plan,
      c.original ∈ (undoLast w
        (applyPlan w ⟨none, none, false⟩ fuel st plan ⟨false⟩).2).2.fs) ∧
    (undoLast w (undoLast w
      (applyPlan w ⟨none, none, false⟩ fuel st plan ⟨false⟩).2).2).1.isOk =
      false := by
  have hval := validateApplyCandidates_ok w st plan hg
  have hOmem : ∀ c ∈ changedCands plan, c.original ∈ origsOf plan :=
    fun c hc => List.mem_map.mpr ⟨c, hc, rfl⟩
  have hstagedO : (stagedOf w 0 (changedCands plan)).map (·.originalPath) =
      origsOf plan := stagedOf_map_original w 0 (changedCands plan)
  have hstagedT : (stagedOf w 0 (changedCands plan)).map (·.targetPath) =
      targetsOf plan := stagedOf_map_target w 0 (changedCands plan)
  have hePO : ∀ e ∈ stagedOf w 0 (changedCands plan),
      e.originalPath ∈ origsOf plan := by
    intro e he
    rw [← hstagedO]
    exact List.mem_map.mpr ⟨e, he, rfl⟩
  have hePT : ∀ e ∈ stagedOf w 0 (changedCands plan),
      e.targetPath ∈ targetsOf plan := by
    intro e he
    rw [← hstagedT]
    exact List.mem_map.mpr ⟨e, he, rfl⟩
  have hePP : ∀ e ∈ stagedOf w 0 (changedCands plan),
      e.tempPath ∈ tempsOf w plan :=
    fun e he => List.mem_map.mpr ⟨e, he, rfl⟩
  -- stage phase
  have hstage := stageLoop_ok w ⟨none, none, false⟩ rfl (changedCands plan)
    0 st.fs [] hg.origsNodup
    (fun c hc => hg.origsExist c.original (hOmem c hc))
  have hfst1 : ((stagedOf w 0 (changedCands plan)).map
      (fun e => (e.originalPath, e.tempPath))).map Prod.fst = origsOf plan := by
    rw [List.map_map]
    exact hstagedO
  have hsnd1 : ((stagedOf w 0 (changedCands plan)).map
      (fun e => (e.originalPath, e.tempPath))).map Prod.snd =
      tempsOf w plan := by
    rw [List.map_map]
    rfl
  have hm1 : ∀ x, x ∈ applyRenames
      ((stagedOf w 0 (changedCands plan)).map
        (fun e => (e.originalPath, e.tempPath))) st.fs ↔
      (x ∈ st.fs ∧ x ∉ origsOf plan) ∨ x ∈ tempsOf w plan := by
    intro x
    rw [mem_applyRenames x _ st.fs (by rw [hfst1]; exact hg.origsNodup)
      (by
        intro p hp
        rcases List.mem_map.mp hp with ⟨e, he, hpe⟩
        rw [← hpe]
        exact hg.origsExist e.originalPath (hePO e he))
      (by
        intro p hp q hq
        rcases List.mem_map.mp hp with ⟨e, he, hpe⟩
        rcases List.mem_map.mp hq with ⟨f, hf, hqe⟩
        subst hpe
        subst hqe
        intro hcon
        have hcon2 : e.originalPath = f.tempPath := hcon
        exact hg.origsNotTemps e.originalPath (hePO e he)
          (hcon2 ▸ hePP f hf))]
    rw [hfst1, hsnd1]
  -- commit phase succeeds
  have hcommit := commitLoop_ok ⟨none, none, false⟩
    (stagedOf w 0 (changedCands plan)) rfl
    (stagedOf w 0 (changedCands plan)) 0
    (applyRenames ((stagedOf w 0 (changedCands plan)).map
      (fun e => (e.originalPath, e.tempPath))) st.fs)
    hg.tempsNodup
    (by
      intro e he
      exact (hm1 e.tempPath).mpr (Or.inr (hePP e he)))
  -- membership in the fully committed filesystem
  have hfstC : ((stagedOf w 0 (changedCands plan)).map
      (fun e => (e.tempPath, e.targetPath))).map Prod.fst =
      tempsOf w plan := by
    rw [List.map_map]
    rfl
  have hsndC : ((stagedOf w 0 (changedCands plan)).map
      (fun e => (e.tempPath, e.targetPath))).map Prod.snd =
      targetsOf plan := by
    rw [List.map_map]
    exact hstagedT
  have hm2 : ∀ x, x ∈ applyRenames
      ((stagedOf w 0 (changedCands plan)).map
        (fun e => (e.tempPath, e.targetPath)))
      (applyRenames ((stagedOf w 0 (changedCands plan)).map
        (fun e => (e.originalPath, e.tempPath))) st.fs) ↔
      ((x ∈ st.fs ∧ x ∉ origsOf plan) ∨ x ∈ tempsOf w plan) ∧
        x ∉ tempsOf w plan ∨ x ∈ targetsOf plan := by
    intro x
    rw [mem_applyRenames x _ _ (by rw [hfstC]; exact hg.tempsNodup)
      (by
        intro p hp
        rcases List.mem_map.mp hp with ⟨e, he, hpe⟩
        rw [← hpe]
        exact (hm1 e.tempPath).mpr (Or.inr (hePP e he)))
      (by
        intro p hp q hq
        rcases List.mem_map.mp hp with ⟨e, he, hpe⟩
        rcases List.mem_map.mp hq with ⟨f, hf, hqe⟩
        subst hpe
        subst hqe
        intro hcon
        have hcon2 : e.tempPath = f.targetPath := hcon
        exact hg.targetsNotTemps f.targetPath (hePT f hf)
          (hcon2 ▸ hePP e he))]
    rw [hfstC, hsndC, hm1 x]
  -- the recorded operations
  have hopsF : (opsOf (stagedOf w 0 (changedCands plan))).map (·.fromPath) =
      origsOf plan := by
    unfold opsOf
    rw [List.map_map]
    exact hstagedO
  have hopsT : (opsOf (stagedOf w 0 (changedCands plan))).map (·.toPath) =
      targetsOf plan := by
    unfold opsOf
    rw [List.map_map]
    exact hstagedT
  have hopF : ∀ op ∈ opsOf (stagedOf w 0 (changedCands plan)),
      op.fromPath ∈ origsOf plan := by
    intro op hop
    rw [← hopsF]
    exact List.mem_map.mpr ⟨op, hop, rfl⟩
  have hopT : ∀ op ∈ opsOf (stagedOf w 0 (changedCands plan)),
      op.toPath ∈ targetsOf plan := by
    intro op hop
    rw [← hopsT]
    exact List.mem_map.mpr ⟨op, hop, rfl⟩
  have hM : (opsOf (stagedOf w 0 (changedCands plan))).length =
      (changedCands plan).length := by
    simp [opsOf, stagedOf_length]
  -- the whole apply run
  have key1 : applyPlan w ⟨none, none, false⟩ fuel st plan ⟨false⟩ =
      (.ok ⟨(opsOf (stagedOf w 0 (changedCands plan))).length,
            plan.candidates.length -
              (opsOf (stagedOf w 0 (changedCands plan))).length⟩,
       ⟨applyRenames
          ((stagedOf w 0 (changedCands plan)).map
            (fun e => (e.tempPath, e.targetPath)))
          (applyRenames ((stagedOf w 0 (changedCands plan)).map
            (fun e => (e.originalPath, e.tempPath))) st.fs),
        some ⟨opsOf (stagedOf w 0 (changedCands plan)), false,
              some plan.jpgRoot, planJpgRoots plan, []⟩⟩) := by
    unfold applyPlan
    rw [if_neg hne, hval]
    dsimp only
    rw [if_neg (by simp)]
    dsimp only
    simp only [List.foldl_nil]
    rw [hstage]
    dsimp only
    simp only [List.nil_append]
    rw [hcommit]
    dsimp only
    rw [if_neg (by simp)]
  -- validation of the recorded journal
  obtain ⟨R, hRok, hRmem⟩ := canonicalizeJpgRoots_ok w (planJpgRoots plan)
    (planJpgRoots_ne plan) (fun r _ => hg.canonId r) hg.rootsDir
  have hvops : validateOpsLoop w R ∅ ∅
      (opsOf (stagedOf w 0 (changedCands plan))) =
      .ok (opsOf (stagedOf w 0 (changedCands plan))) := by
    apply validateOpsLoop_ok w R hg.canonId
    · intro op hop
      rcases List.mem_map.mp (hopF op hop) with ⟨c, hc, hceq⟩
      constructor
      · rw [← hceq]
        exact hg.origNe c hc
      · rw [← hceq, pathWithinAnyRoot_iff]
        obtain ⟨r, hr, hpre⟩ := hg.origParentInRoot c hc
        exact ⟨r, (hRmem r).mpr hr, hpre⟩
    · intro op hop
      rcases List.mem_map.mp (hopT op hop) with ⟨c, hc, hceq⟩
      constructor
      · rw [← hceq]
        exact hg.targetNe c hc
      · rw [← hceq, pathWithinAnyRoot_iff]
        obtain ⟨r, hr, hpre⟩ := hg.targetParentInRoot c hc
        exact ⟨r, (hRmem r).mpr hr, hpre⟩
    · rw [hopsF]
      exact hg.origsNodup
    · rw [hopsT]
      exact hg.targetsNodup
    · exact fun op _ => Finset.not_mem_empty _
    · exact fun op _ => Finset.not_mem_empty _
  have hvu : validateUndoLog w
      (applyRenames
        ((stagedOf w 0 (changedCands plan)).map
          (fun e => (e.tempPath, e.targetPath)))
        (applyRenames ((stagedOf w 0 (changedCands plan)).map
          (fun e => (e.originalPath, e.tempPath))) st.fs))
      ⟨opsOf (stagedOf w 0 (changedCands plan)), false,
       some plan.jpgRoot, planJpgRoots plan, []⟩ =
      .ok ⟨opsOf (stagedOf w 0 (changedCands plan)), R, []⟩ := by
    have hraw : undoRawRoots
        ⟨opsOf (stagedOf w 0 (changedCands plan)), false,
         some plan.jpgRoot, planJpgRoots plan, []⟩ = planJpgRoots plan := by
      simp [undoRawRoots, planJpgRoots_ne plan]
    unfold validateUndoLog
    rw [hraw]
    rw [if_neg (planJpgRoots_ne plan)]
    rw [hRok]
    dsimp only
    rw [hvops]
    dsimp only
    rw [if_neg (by simp)]
  -- the restore fold reverses everything
  have hfst5 : ((opsOf (stagedOf w 0 (changedCands plan))).map
      (fun o => (o.toPath, o.fromPath))).map Prod.fst = targetsOf plan := by
    rw [List.map_map]
    exact hopsT
  have hsnd5 : ((opsOf (stagedOf w 0 (changedCands plan))).map
      (fun o => (o.toPath, o.fromPath))).map Prod.snd = origsOf plan := by
    rw [List.map_map]
    exact hopsF
  have hm5 : ∀ x, x ∈ applyRenames
      ((opsOf (stagedOf w 0 (changedCands plan))).map
        (fun o => (o.toPath, o.fromPath))).reverse
      (applyRenames
        ((stagedOf w 0 (changedCands plan)).map
          (fun e => (e.tempPath, e.targetPath)))
        (applyRenames ((stagedOf w 0 (changedCands plan)).map
          (fun e => (e.originalPath, e.tempPath))) st.fs)) ↔
      ((((x ∈ st.fs ∧ x ∉ origsOf plan) ∨ x ∈ tempsOf w plan) ∧
          x ∉ tempsOf w plan ∨ x ∈ targetsOf plan) ∧
        x ∉ targetsOf plan) ∨ x ∈ origsOf plan := by
    intro x
    rw [mem_applyRenames_reverse x _ _
      (by rw [hfst5]; exact hg.targetsNodup)
      (by
        intro p hp
        rcases List.mem_map.mp hp with ⟨o, ho, hpe⟩
        rw [← hpe]
        exact (hm2 o.toPath).mpr (Or.inr (hopT o ho)))
      (by
        intro p hp q hq
        rcases List.mem_map.mp hp with ⟨o, ho, hpe⟩
        rcases List.mem_map.mp hq with ⟨o2, ho2, hqe⟩
        subst hpe
        subst hqe
        intro hcon
        have hcon2 : o.toPath = o2.fromPath := hcon
        exact hg.origsNotTargets o2.fromPath (hopF o2 ho2)
          (hcon2 ▸ hopT o ho))]
    rw [hfst5, hsnd5, hm2 x]
  have hback : applyRenames
      ((opsOf (stagedOf w 0 (changedCands plan))).map
        (fun o => (o.toPath, o.fromPath))).reverse
      (applyRenames
        ((stagedOf w 0 (changedCands plan)).map
          (fun e => (e.tempPath, e.targetPath)))
        (applyRenames ((stagedOf w 0 (changedCands plan)).map
          (fun e => (e.originalPath, e.tempPath))) st.fs)) = st.fs := by
    apply Finset.ext
    intro x
    rw [hm5 x]
    have hO : x ∈ origsOf plan → x ∈ st.fs := hg.origsExist x
    have hT : x ∈ targetsOf plan → x ∉ st.fs := hg.targetsFresh x
    have hP : x ∈ tempsOf w plan → x ∉ st.fs := hg.tempsFresh x
    tauto
  have hrestore : restoreOperations
      (opsOf (stagedOf w 0 (changedCands plan)))
      (applyRenames
        ((stagedOf w 0 (changedCands plan)).map
          (fun e => (e.tempPath, e.targetPath)))
        (applyRenames ((stagedOf w 0 (changedCands plan)).map
          (fun e => (e.originalPath, e.tempPath))) st.fs)) =
      ((opsOf (stagedOf w 0 (changedCands plan))).length, st.fs) := by
    unfold restoreOperations
    rw [restoreFold_ok ((opsOf (stagedOf w 0 (changedCands plan))).reverse) 0 _
      (by
        rw [List.map_reverse, hopsT]
        exact List.nodup_reverse.mpr hg.targetsNodup)
      (by
        intro op hop
        exact (hm2 op.toPath).mpr
          (Or.inr (hopT op (List.mem_reverse.mp hop))))]
    rw [List.map_reverse]
    rw [hback]
    simp
  -- the whole undo run
  have key2 : undoLast w
      ⟨applyRenames
         ((stagedOf w 0 (changedCands plan)).map
           (fun e => (e.tempPath, e.targetPath)))
         (applyRenames ((stagedOf w 0 (changedCands plan)).map
           (fun e => (e.originalPath, e.tempPath))) st.fs),
       some ⟨opsOf (stagedOf w 0 (changedCands plan)), false,
             some plan.jpgRoot, planJpgRoots plan, []⟩⟩ =
      (.ok ⟨(opsOf (stagedOf w 0 (changedCands plan))).length⟩,
       ⟨st.fs, none⟩) := by
    unfold undoLast
    dsimp only
    rw [hvu]
    dsimp only
    rw [hrestore]
    dsimp only
    simp [cleanupBackupIfNeeded]
  have hA2 : (applyPlan w ⟨none, none, false⟩ fuel st plan ⟨false⟩).2 =
      ⟨applyRenames
         ((stagedOf w 0 (changedCands plan)).map
           (fun e => (e.tempPath, e.targetPath)))
         (applyRenames ((stagedOf w 0 (changedCands plan)).map
           (fun e => (e.originalPath, e.tempPath))) st.fs),
       some ⟨opsOf (stagedOf w 0 (changedCands plan)), false,
             some plan.jpgRoot, planJpgRoots plan, []⟩⟩ := by
    rw [key1]
  have hU : undoLast w
      (applyPlan w ⟨none, none, false⟩ fuel st plan ⟨false⟩).2 =
      (.ok ⟨(opsOf (stagedOf w 0 (changedCands plan))).length⟩,
       ⟨st.fs, none⟩) := by
    rw [hA2, key2]
  refine ⟨?_, ?_, ?_, ?_, ?_, ?_, ?_⟩
  · rw [key1]
    dsimp only
    rw [hM]
  · rw [hU]
    dsimp only
    rw [hM]
  · rw [hU]
  · rw [hU]
  · intro p hp
    rw [hU]
    exact hg.tempsFresh p hp
  · intro c hc
    rw [hU]
    exact hg.origsExist c.original (hOmem c hc)
  · rw [hU]
    rfl

theorem mem_foldl_insert (x : Path) :
    ∀ (l : List Path) (s : Finset Path),
    x ∈ l.foldl (fun s p => insert p s) s ↔ x ∈ s ∨ x ∈ l := by
  intro l
  induction l with
  | nil =>
    intro s
    simp
  | cons a t ih =>
    intro s
    simp only [List.foldl_cons]
    rw [ih (insert a s)]
    simp only [Finset.mem_insert, List.mem_cons]
    tauto

theorem mem_foldl_erase (x : Path) :
    ∀ (l : List Path) (s : Finset Path),
    x ∈ l.foldl (fun s bp => s.erase bp) s ↔ x ∈ s ∧ x ∉ l := by
  intro l
  induction l with
  | nil =>
    intro s
    simp
  | cons a t ih =>
    intro s
    simp only [List.foldl_cons]
    rw [ih (s.erase a)]
    simp only [Finset.mem_erase, List.mem_cons]
    tauto

/-- Witness for C2 at a two-candidate plan with no fault scheduled. -/
theorem apply_then_undo_restores_witness :
    (applyPlan idWorld ⟨none, none, false⟩ 0 twoCandSt twoCandPlan
      ⟨false⟩).1 =
      .ok ⟨(changedCands twoCandPlan).length,
           twoCandPlan.candidates.length -
             (changedCands twoCandPlan).length⟩ ∧
    (undoLast idWorld (applyPlan idWorld ⟨none, none, false⟩ 0 twoCandSt
      twoCandPlan ⟨false⟩).2).1 =
      .ok ⟨(changedCands twoCandPlan).length⟩ ∧
    (undoLast idWorld (applyPlan idWorld ⟨none, none, false⟩ 0 twoCandSt
      twoCandPlan ⟨false⟩).2).2.fs = twoCandSt.fs ∧
    (undoLast idWorld (applyPlan idWorld ⟨none, none, false⟩ 0 twoCandSt
      twoCandPlan ⟨false⟩).2).2.journal = none ∧
    (∀ p ∈ tempsOf idWorld twoCandPlan,
      p ∉ (undoLast idWorld (applyPlan idWorld ⟨none, none, false⟩ 0
        twoCandSt twoCandPlan ⟨false⟩).2).2.fs) ∧
    (∀ c ∈ changedCands twoCandPlan,
      c.original ∈ (undoLast idWorld (applyPlan idWorld ⟨none, none, false⟩
        0 twoCandSt twoCandPlan ⟨false⟩).2).2.fs) ∧
    (undoLast idWorld (undoLast idWorld (applyPlan idWorld
      ⟨none, none, false⟩ 0 twoCandSt twoCandPlan ⟨false⟩).2).2).1.isOk =
      false :=
  apply_then_undo_restores idWorld twoCandSt twoCandPlan 0
    ⟨fun p => rfl, by decide, by decide, by decide, by decide, by decide,
     by decide, by decide, by decide, by decide, by decide, by decide,
     by decide, by decide, by decide, by decide⟩
    (by decide)

/-! ### C3: undo-persist failure triggers a total rollback -/

/-- C3: with backups enabled, when every stage and commit rename succeeds
but persisting the undo journal fails, apply renames every just-committed
target back to its original path, removes every backup file created
during this apply, and returns an error with the filesystem and journal
exactly as at the start. The backup destinations are assumed fresh and
disjoint from the planned targets and temp names, as the reservation
against the live filesystem guarantees in the code. -/
theorem apply_persist_failure_total_rollback (w : World) (st : St)
    (plan : Plan) (fuel : Nat) (bps : List Path)
    (hg : GoodPlan w st plan) (hne : changedCands plan ≠ [])
    (hb : backupOriginalFiles w fuel st.fs plan (changedCands plan) =
      some bps)
    (hbst : ∀ b ∈ bps, b ∉ st.fs)
    (hbT : ∀ b ∈ bps, b ∉ targetsOf plan)
    (hbP : ∀ b ∈ bps, b ∉ tempsOf w plan) :
    (applyPlan w ⟨none, none, true⟩ fuel st plan ⟨true⟩).1 =
      .error "undo-persist-failed" ∧
    (applyPlan w ⟨none, none, true⟩ fuel st plan ⟨true⟩).2.fs = st.fs ∧
    (applyPlan w ⟨none, none, true⟩ fuel st plan ⟨true⟩).2.journal =
      st.journal ∧
    (∀ c ∈ changedCands plan,
      c.original ∈ (applyPlan w ⟨none, none, true⟩ fuel st plan ⟨true⟩).2.fs ∧
      c.target ∉ (applyPlan w ⟨none, none, true⟩ fuel st plan ⟨true⟩).2.fs) ∧
    (∀ b ∈ bps,
      b ∉ (applyPlan w ⟨none, none, true⟩ fuel st plan ⟨true⟩).2.fs) := by
  have hval := validateApplyCandidates_ok w st plan hg
  have hOmem : ∀ c ∈ changedCands plan, c.original ∈ origsOf plan :=
    fun c hc => List.mem_map.mpr ⟨c, hc, rfl⟩
  have hTmem : ∀ c ∈ changedCands plan, c.target ∈ targetsOf plan :=
    fun c hc => List.mem_map.mpr ⟨c, hc, rfl⟩
  have hstagedO : (stagedOf w 0 (changedCands plan)).map (·.originalPath) =
      origsOf plan := stagedOf_map_original w 0 (changedCands plan)
  have hstagedT : (stagedOf w 0 (changedCands plan)).map (·.targetPath) =
      targetsOf plan := stagedOf_map_target w 0 (changedCands plan)
  have hePO : ∀ e ∈ stagedOf w 0 (changedCands plan),
      e.originalPath ∈ origsOf plan := by
    intro e he
    rw [← hstagedO]
    exact List.mem_map.mpr ⟨e, he, rfl⟩
  have hePT : ∀ e ∈ stagedOf w 0 (changedCands plan),
      e.targetPath ∈ targetsOf plan := by
    intro e he
    rw [← hstagedT]
    exact List.mem_map.mpr ⟨e, he, rfl⟩
  have hePP : ∀ e ∈ stagedOf w 0 (changedCands plan),
      e.tempPath ∈ tempsOf w plan :=
    fun e he => List.mem_map.mpr ⟨e, he, rfl⟩
  -- the filesystem after the backup copies are created
  have hfsB : ∀ x, x ∈ bps.foldl (fun s p => insert p s) st.fs ↔
      x ∈ st.fs ∨ x ∈ bps :=
    fun x => mem_foldl_insert x bps st.fs
  have hOE : ∀ p ∈ origsOf plan,
      p ∈ bps.foldl (fun s p => insert p s) st.fs :=
    fun p hp => (hfsB p).mpr (Or.inl (hg.origsExist p hp))
  have hTF : ∀ p ∈ targetsOf plan,
      p ∉ bps.foldl (fun s p => insert p s) st.fs := by
    intro p hp hmem
    rcases (hfsB p).mp hmem with h | h
    · exact hg.targetsFresh p hp h
    · exact hbT p h hp
  have hPF : ∀ p ∈ tempsOf w plan,
      p ∉ bps.foldl (fun s p => insert p s) st.fs := by
    intro p hp hmem
    rcases (hfsB p).mp hmem with h | h
    · exact hg.tempsFresh p hp h
    · exact hbP p h hp
  -- stage phase over the backed-up filesystem
  have hstage := stageLoop_ok w ⟨none, none, true⟩ rfl (changedCands plan)
    0 (bps.foldl (fun s p => insert p s) st.fs) [] hg.origsNodup
    (fun c hc => hOE c.original (hOmem c hc))
  have hfst1 : ((stagedOf w 0 (changedCands plan)).map
      (fun e => (e.originalPath, e.tempPath))).map Prod.fst = origsOf plan := by
    rw [List.map_map]
    exact hstagedO
  have hsnd1 : ((stagedOf w 0 (changedCands plan)).map
      (fun e => (e.originalPath, e.tempPath))).map Prod.snd =
      tempsOf w plan := by
    rw [List.map_map]
    rfl
  have hm1 : ∀ x, x ∈ applyRenames
      ((stagedOf w 0 (changedCands plan)).map
        (fun e => (e.originalPath, e.tempPath)))
      (bps.foldl (fun s p => insert p s) st.fs) ↔
      (x ∈ bps.foldl (fun s p => insert p s) st.fs ∧ x ∉ origsOf plan) ∨
        x ∈ tempsOf w plan := by
    intro x
    rw [mem_applyRenames x _ _ (by rw [hfst1]; exact hg.origsNodup)
      (by
        intro p hp
        rcases List.mem_map.mp hp with ⟨e, he, hpe⟩
        rw [← hpe]
        exact hOE e.originalPath (hePO e he))
      (by
        intro p hp q hq
        rcases List.mem_map.mp hp with ⟨e, he, hpe⟩
        rcases List.mem_map.mp hq with ⟨f, hf, hqe⟩
        subst hpe
        subst hqe
        intro hcon
        have hcon2 : e.originalPath = f.tempPath := hcon
        exact hg.origsNotTemps e.originalPath (hePO e he)
          (hcon2 ▸ hePP f hf))]
    rw [hfst1, hsnd1]
  -- commit phase succeeds
  have hcommit := commitLoop_ok ⟨none, none, true⟩
    (stagedOf w 0 (changedCands plan)) rfl
    (stagedOf w 0 (changedCands plan)) 0
    (applyRenames ((stagedOf w 0 (changedCands plan)).map
      (fun e => (e.originalPath, e.tempPath)))
      (bps.foldl (fun s p => insert p s) st.fs))
    hg.tempsNodup
    (by
      intro e he
      exact (hm1 e.tempPath).mpr (Or.inr (hePP e he)))
  have hfstC : ((stagedOf w 0 (changedCands plan)).map
      (fun e => (e.tempPath, e.targetPath))).map Prod.fst =
      tempsOf w plan := by
    rw [List.map_map]
    rfl
  have hsndC : ((stagedOf w 0 (changedCands plan)).map
      (fun e => (e.tempPath, e.targetPath))).map Prod.snd =
      targetsOf plan := by
    rw [List.map_map]
    exact hstagedT
  have hm2 : ∀ x, x ∈ applyRenames
      ((stagedOf w 0 (changedCands plan)).map
        (fun e => (e.tempPath, e.targetPath)))
      (applyRenames ((stagedOf w 0 (changedCands plan)).map
        (fun e => (e.originalPath, e.tempPath)))
        (bps.foldl (fun s p => insert p s) st.fs)) ↔
      ((x ∈ bps.foldl (fun s p => insert p s) st.fs ∧ x ∉ origsOf plan) ∨
          x ∈ tempsOf w plan) ∧
        x ∉ tempsOf w plan ∨ x ∈ targetsOf plan := by
    intro x
    rw [mem_applyRenames x _ _ (by rw [hfstC]; exact hg.tempsNodup)
      (by
        intro p hp
        rcases List.mem_map.mp hp with ⟨e, he, hpe⟩
        rw [← hpe]
        exact (hm1 e.tempPath).mpr (Or.inr (hePP e he)))
      (by
        intro p hp q hq
        rcases List.mem_map.mp hp with ⟨e, he, hpe⟩
        rcases List.mem_map.mp hq with ⟨f, hf, hqe⟩
        subst hpe
        subst hqe
        intro hcon
        have hcon2 : e.tempPath = f.targetPath := hcon
        exact hg.targetsNotTemps f.targetPath (hePT f hf)
          (hcon2 ▸ hePP e he))]
    rw [hfstC, hsndC, hm1 x]
  -- the recorded operations
  have hopsF : (opsOf (stagedOf w 0 (changedCands plan))).map (·.fromPath) =
      origsOf plan := by
    unfold opsOf
    rw [List.map_map]
    exact hstagedO
  have hopsT : (opsOf (stagedOf w 0 (changedCands plan))).map (·.toPath) =
      targetsOf plan := by
    unfold opsOf
    rw [List.map_map]
    exact hstagedT
  have hopF : ∀ op ∈ opsOf (stagedOf w 0 (changedCands plan)),
      op.fromPath ∈ origsOf plan := by
    intro op hop
    rw [← hopsF]
    exact List.mem_map.mpr ⟨op, hop, rfl⟩
  have hopT : ∀ op ∈ opsOf (stagedOf w 0 (changedCands plan)),
      op.toPath ∈ targetsOf plan := by
    intro op hop
    rw [← hopsT]
    exact List.mem_map.mpr ⟨op, hop, rfl⟩
  have hfst5 : ((opsOf (stagedOf w 0 (changedCands plan))).map
      (fun o => (o.toPath, o.fromPath))).map Prod.fst = targetsOf plan := by
    rw [List.map_map]
    exact hopsT
  have hsnd5 : ((opsOf (stagedOf w 0 (changedCands plan))).map
      (fun o => (o.toPath, o.fromPath))).map Prod.snd = origsOf plan := by
    rw [List.map_map]
    exact hopsF
  have hm5 : ∀ x, x ∈ applyRenames
      ((opsOf (stagedOf w 0 (changedCands plan))).map
        (fun o => (o.toPath, o.fromPath))).reverse
      (applyRenames
        ((stagedOf w 0 (changedCands plan)).map
          (fun e => (e.tempPath, e.targetPath)))
        (applyRenames ((stagedOf w 0 (changedCands plan)).map
          (fun e => (e.originalPath, e.tempPath)))
          (bps.foldl (fun s p => insert p s) st.fs))) ↔
      ((((x ∈ bps.foldl (fun s p => insert p s) st.fs ∧ x ∉ origsOf plan) ∨
            x ∈ tempsOf w plan) ∧
          x ∉ tempsOf w plan ∨ x ∈ targetsOf plan) ∧
        x ∉ targetsOf plan) ∨ x ∈ origsOf plan := by
    intro x
    rw [mem_applyRenames_reverse x _ _
      (by rw [hfst5]; exact hg.targetsNodup)
      (by
        intro p hp
        rcases List.mem_map.mp hp with ⟨o, ho, hpe⟩
        rw [← hpe]
        exact (hm2 o.toPath).mpr (Or.inr (hopT o ho)))
      (by
        intro p hp q hq
        rcases List.mem_map.mp hp with ⟨o, ho, hpe⟩
        rcases List.mem_map.mp hq with ⟨o2, ho2, hqe⟩
        subst hpe
        subst hqe
        intro hcon
        have hcon2 : o.toPath = o2.fromPath := hcon
        exact hg.origsNotTargets o2.fromPath (hopF o2 ho2)
          (hcon2 ▸ hopT o ho))]
    rw [hfst5, hsnd5, hm2 x]
  -- the persist-failure rollback restores the backed-up filesystem
  have hroll : rollbackAfterUndoPersistFailure
      (opsOf (stagedOf w 0 (changedCands plan)))
      (applyRenames
        ((stagedOf w 0 (changedCands plan)).map
          (fun e => (e.tempPath, e.targetPath)))
        (applyRenames ((stagedOf w 0 (changedCands plan)).map
          (fun e => (e.originalPath, e.tempPath)))
          (bps.foldl (fun s p => insert p s) st.fs))) =
      bps.foldl (fun s p => insert p s) st.fs := by
    unfold rollbackAfterUndoPersistFailure
    apply Finset.ext
    intro x
    rw [hm5 x]
    have hO : x ∈ origsOf plan →
        x ∈ bps.foldl (fun s p => insert p s) st.fs := hOE x
    have hT := hTF x
    have hP := hPF x
    tauto
  -- removing the created backups recovers the starting filesystem
  have hclean : cleanupCreatedBackups bps
      (bps.foldl (fun s p => insert p s) st.fs) = st.fs := by
    unfold cleanupCreatedBackups
    apply Finset.ext
    intro x
    rw [mem_foldl_erase x bps _, hfsB x]
    have hx := hbst x
    tauto
  -- the whole run
  have key : applyPlan w ⟨none, none, true⟩ fuel st plan ⟨true⟩ =
      (.error "undo-persist-failed", ⟨st.fs, st.journal⟩) := by
    unfold applyPlan
    rw [if_neg hne, hval]
    dsimp only
    rw [if_pos rfl]
    rw [hb]
    dsimp only
    rw [hstage]
    dsimp only
    simp only [List.nil_append]
    rw [hcommit]
    dsimp only
    rw [hroll, hclean]
    rw [if_pos trivial]
  rw [key]
  refine ⟨rfl, rfl, rfl, ?_, ?_⟩
  · intro c hc
    exact ⟨hg.origsExist c.original (hOmem c hc),
           hg.targetsFresh c.target (hTmem c hc)⟩
  · intro b hbm
    exact hbst b hbm

/-- Witness for C3 at a two-candidate plan with backups enabled and the
journal write failing. -/
theorem apply_persist_failure_total_rollback_witness :
    (applyPlan idWorld ⟨none, none, true⟩ 0 twoCandSt twoCandPlan
      ⟨true⟩).1 = .error "undo-persist-failed" ∧
    (applyPlan idWorld ⟨none, none, true⟩ 0 twoCandSt twoCandPlan
      ⟨true⟩).2.fs = twoCandSt.fs ∧
    (applyPlan idWorld ⟨none, none, true⟩ 0 twoCandSt twoCandPlan
      ⟨true⟩).2.journal = twoCandSt.journal ∧
    (∀ c ∈ changedCands twoCandPlan,
      c.original ∈ (applyPlan idWorld ⟨none, none, true⟩ 0 twoCandSt
        twoCandPlan ⟨true⟩).2.fs ∧
      c.target ∉ (applyPlan idWorld ⟨none, none, true⟩ 0 twoCandSt
        twoCandPlan ⟨true⟩).2.fs) ∧
    (∀ b ∈ [["root", "backup", "a.jpg"], ["root", "backup", "b.jpg"]],
      b ∉ (applyPlan idWorld ⟨none, none, true⟩ 0 twoCandSt twoCandPlan
        ⟨true⟩).2.fs) :=
  apply_persist_failure_total_rollback idWorld twoCandSt twoCandPlan 0
    [["root", "backup", "a.jpg"], ["root", "backup", "b.jpg"]]
    ⟨fun p => rfl, by decide, by decide, by decide, by decide, by decide,
     by decide, by decide, by decide, by decide, by decide, by decide,
     by decide, by decide, by decide, by decide⟩
    (by decide) (by decide) (by decide) (by decide) (by decide)

end FPhoto
